import Mathlib

/-!
A shallow embedding of the CHIP-8 interpreter core from `src/main.rs`
(`struct Chip`, `Chip::new`, `Chip::step`), together with theorems checking
the natural-language specification against it.

Modelling conventions:
* `u8` values are `Nat`s; every read of a `u8`-typed cell is normalised with
  `% 256`, and every write stores `v % 256`, encoding the Rust type.
* `usize` values (`pc`, `ir`, addresses) are plain `Nat`s.
* `Vec<u8>` memory is a `List Nat`; Rust indexing panics when out of bounds,
  so every memory access is bounds-checked and a panic is modelled by the
  whole step returning `none`.
* The call stack `Vec<Addr>` is a `List Nat` whose head is the top of the
  stack (Rust pushes/pops at the back; only the top is ever accessed).
* The 32x64 `[[bool; 64]; 32]` screen is a `List (List Bool)`.
* The external key state (`WinitInputHelper`) and the random byte drawn by
  opcode C are passed in as an explicit `Input` value: `keyHeld k` answers
  "is logical key k held" (the fixed key map of `get_key_code` is a bijection
  between logical keys 0..15 and physical keys, so querying by logical index
  is faithful), and `randByte` is the byte produced by `rand::random::<u8>()`.
  `get_key_code` hits `unreachable!()` (a panic) when its argument exceeds 15,
  which is likewise modelled by `none`.
* Printing (`desc`, the trace output) has no effect on VM state and is not
  modelled; the `muted` flag, which the code does update, is kept.
* Bit operations on bytes are written with `/`, `%`, `*` where the source
  uses masks and shifts on values < 256; bridging lemmas
  (`mask_hi_nibble_eq`, `mask_lo_nibble_eq`, `lor_nibble_byte_eq`, ...)
  prove the two forms equal on the relevant domains.
-/

/-- The three quirk toggles (`struct CompatibilityOptions`). -/
structure CompatibilityOptions where
  shift_ignores_vy : Bool
  no_increment : Bool
  jump_table_variant : Bool
deriving DecidableEq

/-- `impl Default for CompatibilityOptions`: all three quirks off. -/
def CompatibilityOptions.default : CompatibilityOptions :=
  { shift_ignores_vy := false, no_increment := false, jump_table_variant := false }

/-- The VM state (`struct Chip`). -/
structure Chip where
  opts : CompatibilityOptions
  mem : List Nat
  pc : Nat
  ir : Nat
  stack : List Nat
  dt : Nat
  st : Nat
  regs : List Nat
  screen : List (List Bool)
  muted : Bool
deriving DecidableEq

/-- External inputs consumed by one step: the key state and the random byte. -/
structure Input where
  keyHeld : Nat → Bool
  randByte : Nat

/-- Read register `i` as a `u8` (`self.regs[i]`). -/
def readReg (c : Chip) (i : Nat) : Nat := c.regs.getD i 0 % 256

/-- Write register `i` (`self.regs[i] = v` with `v : u8`). -/
def writeReg (c : Chip) (i v : Nat) : Chip :=
  { c with regs := c.regs.set i (v % 256) }

/-- Read memory byte at `a` (`self.mem[a]`); out of bounds is a panic. -/
def readMem (c : Chip) (a : Nat) : Option Nat :=
  if a < c.mem.length then some (c.mem.getD a 0 % 256) else none

/-- Write memory byte at `a` (`self.mem[a] = v`); out of bounds is a panic. -/
def writeMem (c : Chip) (a v : Nat) : Option Chip :=
  if a < c.mem.length then some { c with mem := c.mem.set a (v % 256) } else none

/-- First fetched byte `self.mem[self.pc]` (value only; bounds are checked in
`step`). -/
def byte1 (c : Chip) : Nat := c.mem.getD c.pc 0 % 256

/-- Second fetched byte `self.mem[self.pc + 1]`. -/
def byte2 (c : Chip) : Nat := c.mem.getD (c.pc + 1) 0 % 256

/-- Group 0: `00E0` clear screen, `00EE` return (with stack-underflow
handling: the failed pop leaves the already-advanced pc untouched). -/
def exec0 (c : Chip) (nnn : Nat) : Chip :=
  if nnn = 0xE0 then
    { c with screen := List.replicate 32 (List.replicate 64 false) }
  else if nnn = 0xEE then
    match c.stack with
    | [] => c
    | a :: rest => { c with pc := a, stack := rest }
  else c

/-- Group 1: jump; the self-jump check `self.pc == nnn + 2` runs on the
already-advanced pc and only sets the diagnostic `muted` flag. -/
def exec1 (c : Chip) (nnn : Nat) : Chip :=
  if c.pc = nnn + 2 then { c with muted := true, pc := nnn }
  else { c with pc := nnn }

/-- Group 2: call; pushes the advanced pc. -/
def exec2 (c : Chip) (nnn : Nat) : Chip :=
  { c with stack := c.pc :: c.stack, pc := nnn }

/-- Group 3: skip if `reg[x] == nn`. -/
def exec3 (c : Chip) (x nn : Nat) : Chip :=
  if readReg c x = nn then { c with pc := c.pc + 2 } else c

/-- Group 4: skip if `reg[x] != nn`. -/
def exec4 (c : Chip) (x nn : Nat) : Chip :=
  if readReg c x ≠ nn then { c with pc := c.pc + 2 } else c

/-- Group 5: skip if `reg[x] == reg[y]`. -/
def exec5 (c : Chip) (x y : Nat) : Chip :=
  if readReg c x = readReg c y then { c with pc := c.pc + 2 } else c

/-- Group 6: `reg[x] = nn`. -/
def exec6 (c : Chip) (x nn : Nat) : Chip := writeReg c x nn

/-- Group 7: `reg[x] = reg[x].wrapping_add(nn)`. -/
def exec7 (c : Chip) (x nn : Nat) : Chip :=
  writeReg c x ((readReg c x + nn) % 256)

/-- Group 8 (sub-dispatch on `n`): arithmetic, logic and shifts. Each arm
writes `reg[x]` first and the flag register 15 second, exactly as the source
does, so for `x = 15` the flag write prevails. In the shift arms the source
computes the shifted value from `self.regs[x]` in both quirk branches (the
branches differ only in the printed description). -/
def exec8 (c : Chip) (x y n : Nat) : Chip :=
  if n = 0 then writeReg c x (readReg c y)
  else if n = 1 then writeReg c x (readReg c x ||| readReg c y)
  else if n = 2 then writeReg c x (readReg c x &&& readReg c y)
  else if n = 3 then writeReg c x (readReg c x ^^^ readReg c y)
  else if n = 4 then
    let result := readReg c x + readReg c y
    writeReg (writeReg c x (result % 256)) 15 (if 255 < result then 1 else 0)
  else if n = 5 then
    let m := readReg c x
    let s := readReg c y
    writeReg (writeReg c x ((m + 256 - s) % 256)) 15 (if m < s then 0 else 1)
  else if n = 7 then
    let m := readReg c y
    let s := readReg c x
    writeReg (writeReg c x ((m + 256 - s) % 256)) 15 (if m < s then 0 else 1)
  else if n = 6 then
    let v := if c.opts.shift_ignores_vy then readReg c x else readReg c x
    writeReg (writeReg c x (v / 2)) 15 (v % 2)
  else if n = 14 then
    let v := if c.opts.shift_ignores_vy then readReg c x else readReg c x
    writeReg (writeReg c x (v * 2 % 256)) 15 (v / 128)
  else c

/-- Group 9: skip if `reg[x] != reg[y]`. -/
def exec9 (c : Chip) (x y : Nat) : Chip :=
  if readReg c x ≠ readReg c y then { c with pc := c.pc + 2 } else c

/-- Group A: `ir = nnn`. -/
def execA (c : Chip) (nnn : Nat) : Chip := { c with ir := nnn }

/-- Group B: jump table; destination `nnn` plus `reg[x]` or `reg[0]`
depending on the quirk; the self-jump check compares against the
pre-advance pc (`self.pc - 2`). -/
def execB (c : Chip) (x nnn : Nat) : Chip :=
  let offs := if c.opts.jump_table_variant then readReg c x else readReg c 0
  let dest := nnn + offs
  if dest = c.pc - 2 then { c with muted := true, pc := dest }
  else { c with pc := dest }

/-- Group C: `reg[x] = random_byte & nn`. -/
def execC (c : Chip) (x nn rnd : Nat) : Chip :=
  writeReg c x (rnd % 256 &&& nn)

/-- Inner draw loop over the 8 sprite columns, mirroring the `for dx in 0..8`
loop with its `break` when `px + dx` leaves the 64-column display; `count` is
the number of iterations left (`8 - dx`), so the loop runs `dx = 0, ..., 7`;
the collision flag is threaded as an accumulator (the source writes it to
register 15 immediately; the net effect per pixel is identical). -/
def drawCols (row : List Bool) (px data dx flag : Nat) :
    (count : Nat) → List Bool × Nat
  | 0 => (row, flag)
  | count + 1 =>
    if 64 ≤ px + dx then (row, flag)
    else
      let pixel := row.getD (px + dx) false
      let d : Bool := decide (data / 2 ^ (7 - dx) % 2 = 1)
      let flag' := if pixel && d then 1 else flag
      drawCols (row.set (px + dx) (xor pixel d)) px data (dx + 1) flag' count

/-- Outer draw loop over the `n` sprite rows, mirroring `for dy in 0..n` with
its `break` when `py + dy` leaves the 32-row display (`count` is `n - dy`,
the iterations left); each drawn row reads one sprite byte at `ir + dy`
(a panic when out of bounds). -/
def drawRows (c : Chip) (px py dy : Nat) : (count : Nat) → Option Chip
  | 0 => some c
  | count + 1 =>
    if 32 ≤ py + dy then some c
    else
      match readMem c (c.ir + dy) with
      | none => none
      | some data =>
        let res :=
          drawCols (c.screen.getD (py + dy) []) px data 0 (readReg c 15) 8
        drawRows
          (writeReg { c with screen := c.screen.set (py + dy) res.1 } 15 res.2)
          px py (dy + 1) count

/-- Group D: draw sprite. Coordinates are wrapped once (`% 64`, `% 32`)
before the flag reset, then the row loop runs for `n` iterations. -/
def execD (c : Chip) (x y n : Nat) : Option Chip :=
  let px := readReg c x % 64
  let py := readReg c y % 32
  drawRows (writeReg c 15 0) px py 0 n

/-- Group E: key skips. `get_key_code(reg[x])` is evaluated before the `nn`
tests and panics (`unreachable!()`) when `reg[x] > 15`. -/
def execE (c : Chip) (inp : Input) (x nn : Nat) : Option Chip :=
  let k := readReg c x
  if 16 ≤ k then none
  else
    some
      (if nn = 0x9E then
        (if inp.keyHeld k then { c with pc := c.pc + 2 } else c)
      else if nn = 0xA1 then
        (if inp.keyHeld k then c else { c with pc := c.pc + 2 })
      else c)

/-- The `F,55` store loop `for i in 0..=x { mem[ir + i] = regs[i] }`;
`count` is the number of iterations left, `x + 1 - i`, so the loop visits
`i = 0, ..., x`. -/
def storeRegs (c : Chip) (i : Nat) : (count : Nat) → Option Chip
  | 0 => some c
  | count + 1 =>
    match writeMem c (c.ir + i) (readReg c i) with
    | none => none
    | some c2 => storeRegs c2 (i + 1) count

/-- The `F,65` load loop `for i in 0..=x { regs[i] = mem[ir + i] }`;
`count` as in `storeRegs`. -/
def loadRegs (c : Chip) (i : Nat) : (count : Nat) → Option Chip
  | 0 => some c
  | count + 1 =>
    match readMem c (c.ir + i) with
    | none => none
    | some v => loadRegs (writeReg c i v) (i + 1) count

/-- Group F (sub-dispatch on `nn`): timers, key wait, index arithmetic, font
address, BCD, and the register-block store/load with the no-increment quirk. -/
def execF (c : Chip) (inp : Input) (x nn : Nat) : Option Chip :=
  if nn = 0x07 then some (writeReg c x c.dt)
  else if nn = 0x0A then
    some
      (match (List.range 16).find? inp.keyHeld with
       | some k => writeReg c x k
       | none => { c with pc := c.pc - 2 })
  else if nn = 0x15 then some { c with dt := readReg c x }
  else if nn = 0x18 then some { c with st := readReg c x }
  else if nn = 0x1E then
    let sum := c.ir % 65536 + readReg c x
    some (writeReg { c with ir := sum % 4096 } 15 (sum / 4096 % 2))
  else if nn = 0x29 then
    some { c with ir := 0x50 + readReg c x % 16 * 5 }
  else if nn = 0x33 then
    let v := readReg c x
    (writeMem c c.ir (v / 100)).bind fun c1 =>
      (writeMem c1 (c.ir + 1) (v % 100 / 10)).bind fun c2 =>
        writeMem c2 (c.ir + 2) (v % 10)
  else if nn = 0x55 then
    (storeRegs c 0 (x + 1)).map fun c1 =>
      if c.opts.no_increment then c1 else { c1 with ir := c1.ir + x }
  else if nn = 0x65 then
    (loadRegs c 0 (x + 1)).map fun c1 =>
      if c.opts.no_increment then c1 else { c1 with ir := c1.ir + x }
  else some c

/-- Dispatch on the opcode group (the `match opcode` of `Chip::step`), given
the already-advanced state `c` and the decoded fields. The returned `Bool` is
the `drew` result value, set only in the draw arm. Opcode groups above 15
cannot arise from a byte; the residual branch mirrors the source's
unreachable wildcard no-op arm. -/
def dispatch (c : Chip) (inp : Input) (o x y n nn nnn : Nat) :
    Option (Chip × Bool) :=
  if o = 0 then some (exec0 c nnn, false)
  else if o = 1 then some (exec1 c nnn, false)
  else if o = 2 then some (exec2 c nnn, false)
  else if o = 3 then some (exec3 c x nn, false)
  else if o = 4 then some (exec4 c x nn, false)
  else if o = 5 then some (exec5 c x y, false)
  else if o = 6 then some (exec6 c x nn, false)
  else if o = 7 then some (exec7 c x nn, false)
  else if o = 8 then some (exec8 c x y n, false)
  else if o = 9 then some (exec9 c x y, false)
  else if o = 10 then some (execA c nnn, false)
  else if o = 11 then some (execB c x nnn, false)
  else if o = 12 then some (execC c x nn inp.randByte, false)
  else if o = 13 then (execD c x y n).map fun c2 => (c2, true)
  else if o = 14 then (execE c inp x nn).map fun c2 => (c2, false)
  else if o = 15 then (execF c inp x nn).map fun c2 => (c2, false)
  else some (c, false)

/-- One fetch-decode-execute step (`Chip::step`). Fetching the two opcode
bytes panics when the pc runs past memory; decoding splits the bytes into
the group `o`, register operands `x`, `y`, and immediates `n`, `nn`, `nnn`;
the pc is advanced by 2 before execution. -/
def step (c : Chip) (inp : Input) : Option (Chip × Bool) :=
  if c.pc + 1 < c.mem.length then
    dispatch { c with pc := c.pc + 2 } inp
      (byte1 c / 16) (byte1 c % 16) (byte2 c / 16) (byte2 c % 16) (byte2 c)
      (byte1 c % 16 * 256 + byte2 c)
  else none

/-- The 80-byte font table copied to 0x50..0xA0 by `Chip::new`. -/
def fontData : List Nat :=
  [0xF0, 0x90, 0x90, 0x90, 0xF0,
   0x20, 0x60, 0x20, 0x20, 0x70,
   0xF0, 0x10, 0xF0, 0x80, 0xF0,
   0xF0, 0x10, 0xF0, 0x10, 0xF0,
   0x90, 0x90, 0xF0, 0x10, 0x10,
   0xF0, 0x80, 0xF0, 0x10, 0xF0,
   0xF0, 0x80, 0xF0, 0x90, 0xF0,
   0xF0, 0x10, 0x20, 0x40, 0x40,
   0xF0, 0x90, 0xF0, 0x90, 0xF0,
   0xF0, 0x90, 0xF0, 0x10, 0xF0,
   0xF0, 0x90, 0xF0, 0x90, 0x90,
   0xE0, 0x90, 0xE0, 0x90, 0xE0,
   0xF0, 0x80, 0x80, 0x80, 0xF0,
   0xE0, 0x90, 0x90, 0x90, 0xE0,
   0xF0, 0x80, 0xF0, 0x80, 0xF0,
   0xF0, 0x80, 0xF0, 0x80, 0x80]

/-- Overwrite a region of `dst` starting at `start` with `src`
(`copy_from_slice`). -/
def copyInto (dst : List Nat) (start : Nat) : List Nat → List Nat
  | [] => dst
  | b :: rest => copyInto (dst.set start b) (start + 1) rest

/-- `Chip::new`: 4096 zeroed bytes with the font at 0x50 and the ROM at
0x200, pc = 0x200, empty stack, zeroed registers, timers and screen. -/
def Chip.new (rom : List Nat) (opts : CompatibilityOptions) : Chip :=
  { opts := opts
    mem := copyInto (copyInto (List.replicate 4096 0) 0x50 fontData) 0x200 rom
    pc := 0x200
    ir := 0
    stack := []
    dt := 0
    st := 0
    regs := List.replicate 16 0
    screen := List.replicate 32 (List.replicate 64 false)
    muted := false }

/-- The screen pixel at row `r`, column `j`. -/
def pixelAt (c : Chip) (r j : Nat) : Bool :=
  (c.screen.getD r []).getD j false

/-- The sprite bit that the column loop starting at `dx` XORs into column `j`
of the current row: set iff `j` is one of the visited columns `px + k`
(`dx ≤ k < 8`, inside the display) and bit `7 - k` of the row byte is 1. -/
def colBit (px data dx j : Nat) : Bool :=
  decide (px ≤ j ∧ j < px + 8 ∧ px + dx ≤ j ∧ j < 64) &&
    decide (data / 2 ^ (7 - (j - px)) % 2 = 1)

/-- The sprite bit that the row loop starting at `dy` XORs into pixel
`(r, j)` of a screen, for sprite data read from `mem` at `ir`. -/
def spriteBit (mem : List Nat) (ir px py n dy r j : Nat) : Bool :=
  decide (py ≤ r ∧ r < py + n ∧ py + dy ≤ r ∧ r < 32) &&
    colBit px (mem.getD (ir + (r - py)) 0 % 256) 0 j

/-- Whether the column loop starting at `dx` hits an already-set pixel. -/
def colHit (row : List Bool) (px data dx : Nat) : Bool :=
  (List.range 64).any fun j => colBit px data dx j && row.getD j false

/-- Whether the row loop starting at `dy` hits an already-set pixel of
`screen`. -/
def rowsHit (mem : List Nat) (ir : Nat) (screen : List (List Bool))
    (px py n dy : Nat) : Bool :=
  (List.range 32).any fun r => (List.range 64).any fun j =>
    spriteBit mem ir px py n dy r j && (screen.getD r []).getD j false

/-- A fixed external input: no key held, random byte 0. Used for the
concrete instances below. -/
def inp0 : Input := { keyHeld := fun _ => false, randByte := 0 }

/-- A small template VM state used to build concrete instances: default
quirks, empty memory (overridden per instance), cleared registers, screen
and timers, pc at 0. -/
def baseChip : Chip :=
  { opts := CompatibilityOptions.default
    mem := []
    pc := 0
    ir := 0
    stack := []
    dt := 0
    st := 0
    regs := List.replicate 16 0
    screen := List.replicate 32 (List.replicate 64 false)
    muted := false }

set_option maxRecDepth 8000

/-! ### Basic list access lemmas -/

theorem getD_set_self {α : Type} (l : List α) (i : Nat) (v d : α)
    (h : i < l.length) : (l.set i v).getD i d = v := by
  rw [List.getD_eq_getElem?_getD, List.getElem?_set_self h]
  rfl

theorem getD_set_ne {α : Type} (l : List α) {i j : Nat} (v : α) (d : α)
    (h : i ≠ j) : (l.set i v).getD j d = l.getD j d := by
  rw [List.getD_eq_getElem?_getD, List.getElem?_set_ne h,
    ← List.getD_eq_getElem?_getD]

theorem getD_replicate {α : Type} {n a : Nat} (v d : α) (h : a < n) :
    (List.replicate n v).getD a d = v := by
  rw [List.getD_eq_getElem _ _ (by simpa using h), List.getElem_replicate]

theorem ext_getD {α : Type} (l₁ l₂ : List α) (d : α)
    (hlen : l₁.length = l₂.length)
    (h : ∀ i, i < l₁.length → l₁.getD i d = l₂.getD i d) : l₁ = l₂ := by
  refine List.ext_getElem hlen fun n h₁ h₂ => ?_
  have := h n h₁
  rwa [List.getD_eq_getElem _ _ h₁, List.getD_eq_getElem _ _ h₂] at this

/-! ### Register and memory access lemmas -/

theorem readReg_lt (c : Chip) (i : Nat) : readReg c i < 256 :=
  Nat.mod_lt _ (by omega)

theorem readReg_writeReg_self (c : Chip) (i v : Nat)
    (h : i < c.regs.length) : readReg (writeReg c i v) i = v % 256 := by
  unfold readReg writeReg
  simp only
  rw [getD_set_self _ _ _ _ h]
  omega

theorem readReg_writeReg_ne (c : Chip) {i j : Nat} (v : Nat) (h : i ≠ j) :
    readReg (writeReg c i v) j = readReg c j := by
  unfold readReg writeReg
  simp only
  rw [getD_set_ne _ _ _ h]

@[simp] theorem writeReg_pc (c : Chip) (i v : Nat) :
    (writeReg c i v).pc = c.pc := rfl
@[simp] theorem writeReg_ir (c : Chip) (i v : Nat) :
    (writeReg c i v).ir = c.ir := rfl
@[simp] theorem writeReg_mem (c : Chip) (i v : Nat) :
    (writeReg c i v).mem = c.mem := rfl
@[simp] theorem writeReg_screen (c : Chip) (i v : Nat) :
    (writeReg c i v).screen = c.screen := rfl
@[simp] theorem writeReg_stack (c : Chip) (i v : Nat) :
    (writeReg c i v).stack = c.stack := rfl
@[simp] theorem writeReg_opts (c : Chip) (i v : Nat) :
    (writeReg c i v).opts = c.opts := rfl
@[simp] theorem writeReg_dt (c : Chip) (i v : Nat) :
    (writeReg c i v).dt = c.dt := rfl
@[simp] theorem writeReg_st (c : Chip) (i v : Nat) :
    (writeReg c i v).st = c.st := rfl
@[simp] theorem writeReg_muted (c : Chip) (i v : Nat) :
    (writeReg c i v).muted = c.muted := rfl
@[simp] theorem writeReg_regs_length (c : Chip) (i v : Nat) :
    (writeReg c i v).regs.length = c.regs.length := List.length_set ..

theorem writeMem_eq_some (c : Chip) (a v : Nat) (h : a < c.mem.length) :
    writeMem c a v = some { c with mem := c.mem.set a (v % 256) } :=
  if_pos h

theorem writeMem_eq_none (c : Chip) (a v : Nat) (h : c.mem.length ≤ a) :
    writeMem c a v = none := if_neg (by omega)

theorem readMem_eq_some (c : Chip) (a : Nat) (h : a < c.mem.length) :
    readMem c a = some (c.mem.getD a 0 % 256) := if_pos h

theorem readMem_eq_none (c : Chip) (a : Nat) (h : c.mem.length ≤ a) :
    readMem c a = none := if_neg (by omega)

/-! ### Bridging lemmas: the source's mask-and-shift idioms equal the
arithmetic forms used in the embedding, on the domains that occur. -/

theorem mask_hi_nibble_eq : ∀ b, b < 256 → (b &&& 0xf0) >>> 4 = b / 16 := by
  decide

theorem mask_lo_nibble_eq : ∀ b, b < 256 → b &&& 0x0f = b % 16 := by decide

theorem lor_nibble_byte_eq :
    ∀ a, a < 16 → ∀ b, b < 256 → a * 256 ||| b = a * 256 + b := by decide

theorem mask_byte_eq : ∀ s, s < 512 → s &&& 0xff = s % 256 := by decide

theorem shiftRight_one_eq : ∀ v, v < 256 → v >>> 1 = v / 2 := by decide

theorem mask_one_eq : ∀ v, v < 256 → v &&& 1 = v % 2 := by decide

theorem mask_hi_bit_eq : ∀ v, v < 256 → (v &&& 0x80) >>> 7 = v / 128 := by
  decide

theorem mask_addr_lo_eq (s : Nat) : s &&& 0xfff = s % 4096 := by
  have := Nat.and_pow_two_sub_one_eq_mod s 12
  norm_num at this
  simpa using this

theorem mask_addr_bit_eq (s : Nat) : (s &&& 0x1000) >>> 12 = s / 4096 % 2 := by
  rw [show (0x1000 : Nat) = 2 ^ 12 by norm_num, Nat.and_two_pow,
    Nat.shiftRight_eq_div_pow, Nat.mul_div_cancel _ (by norm_num : 0 < 2 ^ 12),
    Nat.testBit_to_div_mod]
  have h2 : s / 2 ^ 12 % 2 = 0 ∨ s / 2 ^ 12 % 2 = 1 := by omega
  rcases h2 with h2 | h2 <;> rw [h2] <;> norm_num [h2]

/-! ### Unfolding the fetch-decode step -/

theorem step_eq_dispatch (c : Chip) (inp : Input)
    (h : c.pc + 1 < c.mem.length) :
    step c inp = dispatch { c with pc := c.pc + 2 } inp (byte1 c / 16)
      (byte1 c % 16) (byte2 c / 16) (byte2 c % 16) (byte2 c)
      (byte1 c % 16 * 256 + byte2 c) := by
  unfold step
  rw [if_pos h]

theorem step_eq_none (c : Chip) (inp : Input) (h : c.mem.length ≤ c.pc + 1) :
    step c inp = none := by
  unfold step
  rw [if_neg (by omega)]

theorem dispatch_0 (c : Chip) (inp : Input) (x y n nn nnn : Nat) :
    dispatch c inp 0 x y n nn nnn = some (exec0 c nnn, false) := by
  norm_num [dispatch]

theorem dispatch_1 (c : Chip) (inp : Input) (x y n nn nnn : Nat) :
    dispatch c inp 1 x y n nn nnn = some (exec1 c nnn, false) := by
  norm_num [dispatch]

theorem dispatch_2 (c : Chip) (inp : Input) (x y n nn nnn : Nat) :
    dispatch c inp 2 x y n nn nnn = some (exec2 c nnn, false) := by
  norm_num [dispatch]

theorem dispatch_3 (c : Chip) (inp : Input) (x y n nn nnn : Nat) :
    dispatch c inp 3 x y n nn nnn = some (exec3 c x nn, false) := by
  norm_num [dispatch]

theorem dispatch_4 (c : Chip) (inp : Input) (x y n nn nnn : Nat) :
    dispatch c inp 4 x y n nn nnn = some (exec4 c x nn, false) := by
  norm_num [dispatch]

theorem dispatch_5 (c : Chip) (inp : Input) (x y n nn nnn : Nat) :
    dispatch c inp 5 x y n nn nnn = some (exec5 c x y, false) := by
  norm_num [dispatch]

theorem dispatch_6 (c : Chip) (inp : Input) (x y n nn nnn : Nat) :
    dispatch c inp 6 x y n nn nnn = some (exec6 c x nn, false) := by
  norm_num [dispatch]

theorem dispatch_7 (c : Chip) (inp : Input) (x y n nn nnn : Nat) :
    dispatch c inp 7 x y n nn nnn = some (exec7 c x nn, false) := by
  norm_num [dispatch]

theorem dispatch_8 (c : Chip) (inp : Input) (x y n nn nnn : Nat) :
    dispatch c inp 8 x y n nn nnn = some (exec8 c x y n, false) := by
  norm_num [dispatch]

theorem dispatch_9 (c : Chip) (inp : Input) (x y n nn nnn : Nat) :
    dispatch c inp 9 x y n nn nnn = some (exec9 c x y, false) := by
  norm_num [dispatch]

theorem dispatch_10 (c : Chip) (inp : Input) (x y n nn nnn : Nat) :
    dispatch c inp 10 x y n nn nnn = some (execA c nnn, false) := by
  norm_num [dispatch]

theorem dispatch_11 (c : Chip) (inp : Input) (x y n nn nnn : Nat) :
    dispatch c inp 11 x y n nn nnn = some (execB c x nnn, false) := by
  norm_num [dispatch]

theorem dispatch_12 (c : Chip) (inp : Input) (x y n nn nnn : Nat) :
    dispatch c inp 12 x y n nn nnn =
      some (execC c x nn inp.randByte, false) := by
  norm_num [dispatch]

theorem dispatch_13 (c : Chip) (inp : Input) (x y n nn nnn : Nat) :
    dispatch c inp 13 x y n nn nnn =
      (execD c x y n).map fun c2 => (c2, true) := by
  norm_num [dispatch]

theorem dispatch_14 (c : Chip) (inp : Input) (x y n nn nnn : Nat) :
    dispatch c inp 14 x y n nn nnn =
      (execE c inp x nn).map fun c2 => (c2, false) := by
  norm_num [dispatch]

theorem dispatch_15 (c : Chip) (inp : Input) (x y n nn nnn : Nat) :
    dispatch c inp 15 x y n nn nnn =
      (execF c inp x nn).map fun c2 => (c2, false) := by
  norm_num [dispatch]

/-! ### Characterisation of the inner draw loop -/

theorem colBit_eq_false (px data dx j : Nat)
    (h : ¬(px ≤ j ∧ j < px + 8 ∧ px + dx ≤ j ∧ j < 64)) :
    colBit px data dx j = false := by
  unfold colBit
  rw [decide_eq_false h]
  rfl

theorem colBit_succ_eq (px data dx j : Nat) (h : j ≠ px + dx) :
    colBit px data (dx + 1) j = colBit px data dx j := by
  unfold colBit
  congr 1
  rw [decide_eq_decide]
  omega

theorem colBit_self (px data dx : Nat) (h8 : dx < 8) (h64 : px + dx < 64) :
    colBit px data dx (px + dx) = decide (data / 2 ^ (7 - dx) % 2 = 1) := by
  unfold colBit
  rw [decide_eq_true (show px ≤ px + dx ∧ px + dx < px + 8 ∧
    px + dx ≤ px + dx ∧ px + dx < 64 by omega)]
  rw [show px + dx - px = dx by omega]
  exact Bool.true_and _

theorem colHit_iff (row : List Bool) (px data dx : Nat) :
    colHit row px data dx = true ↔
      ∃ j, j < 64 ∧ colBit px data dx j = true ∧ row.getD j false = true := by
  unfold colHit
  rw [List.any_eq_true]
  constructor
  · rintro ⟨j, hj, hp⟩
    rw [Bool.and_eq_true] at hp
    exact ⟨j, List.mem_range.mp hj, hp.1, hp.2⟩
  · rintro ⟨j, hj, h1, h2⟩
    exact ⟨j, List.mem_range.mpr hj, by rw [Bool.and_eq_true]; exact ⟨h1, h2⟩⟩

theorem drawCols_fst_length (count : Nat) :
    ∀ (row : List Bool) (px data dx flag : Nat),
      (drawCols row px data dx flag count).1.length = row.length := by
  induction count with
  | zero => intro row px data dx flag; rfl
  | succ k ih =>
    intro row px data dx flag
    simp only [drawCols]
    split
    · rfl
    · rw [ih]
      exact List.length_set ..

theorem drawCols_fst_getD (count : Nat) :
    ∀ (row : List Bool) (px data dx flag j : Nat), row.length = 64 →
      dx + count = 8 →
      (drawCols row px data dx flag count).1.getD j false =
        xor (row.getD j false) (colBit px data dx j) := by
  induction count with
  | zero =>
    intro row px data dx flag j hlen hc
    rw [show dx = 8 by omega] at *
    rw [colBit_eq_false _ _ _ _ (by omega)]
    simp [drawCols]
  | succ k ih =>
    intro row px data dx flag j hlen hc
    simp only [drawCols]
    split
    · rw [colBit_eq_false _ _ _ _ (by omega)]
      simp
    · rename_i hbr
      rw [ih _ px data (dx + 1) _ j (by rw [List.length_set]; exact hlen)
        (by omega)]
      by_cases hj : j = px + dx
      · subst hj
        rw [getD_set_self _ _ _ _ (by omega)]
        rw [colBit_eq_false px data (dx + 1) _ (by omega)]
        rw [colBit_self px data dx (by omega) (by omega)]
        simp
      · rw [getD_set_ne _ _ _ (fun hh => hj hh.symm)]
        rw [colBit_succ_eq _ _ _ _ hj]

theorem colBit_true_bounds (px data dx j : Nat) (h : colBit px data dx j = true) :
    px ≤ j ∧ j < px + 8 ∧ px + dx ≤ j ∧ j < 64 := by
  unfold colBit at h
  rw [Bool.and_eq_true, decide_eq_true_eq] at h
  exact h.1

theorem colHit_false_of (row : List Bool) (px data dx : Nat)
    (h : ∀ j, colBit px data dx j = false) : colHit row px data dx = false := by
  cases hc : colHit row px data dx
  · rfl
  · obtain ⟨j, _, hb, _⟩ := (colHit_iff row px data dx).mp hc
    rw [h j] at hb
    exact absurd hb (by simp)

theorem colHit_set_lt (row : List Bool) (px data dx j0 : Nat) (v : Bool)
    (h : j0 < px + dx) :
    colHit (row.set j0 v) px data dx = colHit row px data dx := by
  rw [Bool.eq_iff_iff, colHit_iff, colHit_iff]
  constructor
  · rintro ⟨j, hj, hb, hr⟩
    have hbnd := colBit_true_bounds _ _ _ _ hb
    refine ⟨j, hj, hb, ?_⟩
    rwa [getD_set_ne _ _ _ (by omega)] at hr
  · rintro ⟨j, hj, hb, hr⟩
    have hbnd := colBit_true_bounds _ _ _ _ hb
    refine ⟨j, hj, hb, ?_⟩
    rwa [getD_set_ne _ _ _ (by omega)]

theorem colHit_succ_decomp (row : List Bool) (px data dx : Nat) (h8 : dx < 8)
    (h64 : px + dx < 64) :
    colHit row px data dx =
      (colHit row px data (dx + 1) ||
        (row.getD (px + dx) false && decide (data / 2 ^ (7 - dx) % 2 = 1))) := by
  rw [Bool.eq_iff_iff, colHit_iff, Bool.or_eq_true, colHit_iff,
    Bool.and_eq_true]
  constructor
  · rintro ⟨j, hj, hb, hr⟩
    by_cases hjp : j = px + dx
    · subst hjp
      right
      rw [colBit_self px data dx h8 h64] at hb
      exact ⟨hr, hb⟩
    · exact Or.inl ⟨j, hj, by rw [colBit_succ_eq _ _ _ _ hjp]; exact hb, hr⟩
  · rintro (⟨j, hj, hb, hr⟩ | ⟨hr, hd⟩)
    · have hbnd := colBit_true_bounds _ _ _ _ hb
      refine ⟨j, hj, ?_, hr⟩
      rw [← colBit_succ_eq _ _ _ _ (by omega)]
      exact hb
    · exact ⟨px + dx, h64, by rw [colBit_self px data dx h8 h64]; exact hd, hr⟩

theorem drawCols_snd (count : Nat) :
    ∀ (row : List Bool) (px data dx flag : Nat), row.length = 64 →
      dx + count = 8 →
      (drawCols row px data dx flag count).2 =
        if colHit row px data dx then 1 else flag := by
  induction count with
  | zero =>
    intro row px data dx flag hlen hc
    rw [colHit_false_of row px data dx
      (fun j => colBit_eq_false _ _ _ _ (by omega))]
    simp [drawCols]
  | succ k ih =>
    intro row px data dx flag hlen hc
    simp only [drawCols]
    split
    · rename_i hbr
      rw [colHit_false_of row px data dx
        (fun j => colBit_eq_false _ _ _ _ (by omega))]
      simp
    · rename_i hbr
      rw [ih _ px data (dx + 1) _ (by rw [List.length_set]; exact hlen)
        (by omega)]
      rw [colHit_set_lt row px data (dx + 1) (px + dx) _ (by omega)]
      rw [colHit_succ_decomp row px data dx (by omega) (by omega)]
      cases hA : colHit row px data (dx + 1) <;>
        cases hB : (row.getD (px + dx) false &&
          decide (data / 2 ^ (7 - dx) % 2 = 1)) <;>
        simp [hA, hB]

/-! ### Characterisation of the outer draw loop -/

theorem spriteBit_eq_false (mem : List Nat) (ir px py n dy r j : Nat)
    (h : ¬(py ≤ r ∧ r < py + n ∧ py + dy ≤ r ∧ r < 32)) :
    spriteBit mem ir px py n dy r j = false := by
  unfold spriteBit
  rw [decide_eq_false h]
  rfl

theorem spriteBit_succ_eq (mem : List Nat) (ir px py n dy r j : Nat)
    (h : r ≠ py + dy) :
    spriteBit mem ir px py n (dy + 1) r j = spriteBit mem ir px py n dy r j := by
  unfold spriteBit
  congr 1
  rw [decide_eq_decide]
  omega

theorem spriteBit_self (mem : List Nat) (ir px py n dy j : Nat)
    (hdy : dy < n) (h32 : py + dy < 32) :
    spriteBit mem ir px py n dy (py + dy) j =
      colBit px (mem.getD (ir + dy) 0 % 256) 0 j := by
  unfold spriteBit
  rw [decide_eq_true (show py ≤ py + dy ∧ py + dy < py + n ∧
    py + dy ≤ py + dy ∧ py + dy < 32 by omega)]
  rw [show py + dy - py = dy by omega]
  exact Bool.true_and _

theorem spriteBit_true_bounds (mem : List Nat) (ir px py n dy r j : Nat)
    (h : spriteBit mem ir px py n dy r j = true) :
    py ≤ r ∧ r < py + n ∧ py + dy ≤ r ∧ r < 32 := by
  unfold spriteBit at h
  rw [Bool.and_eq_true, decide_eq_true_eq] at h
  exact h.1

theorem rowsHit_iff (mem : List Nat) (ir : Nat) (screen : List (List Bool))
    (px py n dy : Nat) :
    rowsHit mem ir screen px py n dy = true ↔
      ∃ r, r < 32 ∧ ∃ j, j < 64 ∧ spriteBit mem ir px py n dy r j = true ∧
        (screen.getD r []).getD j false = true := by
  unfold rowsHit
  rw [List.any_eq_true]
  constructor
  · rintro ⟨r, hr, hp⟩
    rw [List.any_eq_true] at hp
    obtain ⟨j, hj, hpj⟩ := hp
    rw [Bool.and_eq_true] at hpj
    exact ⟨r, List.mem_range.mp hr, j, List.mem_range.mp hj, hpj.1, hpj.2⟩
  · rintro ⟨r, hr, j, hj, h1, h2⟩
    refine ⟨r, List.mem_range.mpr hr, ?_⟩
    rw [List.any_eq_true]
    exact ⟨j, List.mem_range.mpr hj, by rw [Bool.and_eq_true]; exact ⟨h1, h2⟩⟩

theorem rowsHit_false_of (mem : List Nat) (ir : Nat)
    (screen : List (List Bool)) (px py n dy : Nat)
    (h : ∀ r j, spriteBit mem ir px py n dy r j = false) :
    rowsHit mem ir screen px py n dy = false := by
  cases hc : rowsHit mem ir screen px py n dy
  · rfl
  · obtain ⟨r, _, j, _, hb, _⟩ := (rowsHit_iff mem ir screen px py n dy).mp hc
    rw [h r j] at hb
    exact absurd hb (by simp)

theorem rowsHit_set_lt (mem : List Nat) (ir : Nat)
    (screen : List (List Bool)) (px py n dy r0 : Nat) (row : List Bool)
    (h : r0 < py + dy) :
    rowsHit mem ir (screen.set r0 row) px py n dy =
      rowsHit mem ir screen px py n dy := by
  rw [Bool.eq_iff_iff, rowsHit_iff, rowsHit_iff]
  constructor
  · rintro ⟨r, hr, j, hj, hb, hp⟩
    have hbnd := spriteBit_true_bounds _ _ _ _ _ _ _ _ hb
    refine ⟨r, hr, j, hj, hb, ?_⟩
    rwa [getD_set_ne _ _ _ (by omega)] at hp
  · rintro ⟨r, hr, j, hj, hb, hp⟩
    have hbnd := spriteBit_true_bounds _ _ _ _ _ _ _ _ hb
    refine ⟨r, hr, j, hj, hb, ?_⟩
    rwa [getD_set_ne _ _ _ (by omega)]

theorem rowsHit_succ_decomp (mem : List Nat) (ir : Nat)
    (screen : List (List Bool)) (px py n dy : Nat) (hdy : dy < n)
    (h32 : py + dy < 32) :
    rowsHit mem ir screen px py n dy =
      (rowsHit mem ir screen px py n (dy + 1) ||
        colHit (screen.getD (py + dy) []) px (mem.getD (ir + dy) 0 % 256) 0) := by
  rw [Bool.eq_iff_iff, rowsHit_iff, Bool.or_eq_true, rowsHit_iff, colHit_iff]
  constructor
  · rintro ⟨r, hr, j, hj, hb, hp⟩
    by_cases hrp : r = py + dy
    · subst hrp
      right
      rw [spriteBit_self _ _ _ _ _ _ _ hdy h32] at hb
      exact ⟨j, hj, hb, hp⟩
    · exact Or.inl ⟨r, hr, j, hj,
        by rw [spriteBit_succ_eq _ _ _ _ _ _ _ _ hrp]; exact hb, hp⟩
  · rintro (⟨r, hr, j, hj, hb, hp⟩ | ⟨j, hj, hb, hp⟩)
    · have hbnd := spriteBit_true_bounds _ _ _ _ _ _ _ _ hb
      refine ⟨r, hr, j, hj, ?_, hp⟩
      rw [← spriteBit_succ_eq _ _ _ _ _ _ _ _ (by omega)]
      exact hb
    · refine ⟨py + dy, h32, j, hj, ?_, hp⟩
      rw [spriteBit_self _ _ _ _ _ _ _ hdy h32]
      exact hb

theorem drawRows_isSome (count : Nat) :
    ∀ (c : Chip) (px py dy : Nat),
      (∀ k, k < count → py + dy + k < 32 → c.ir + dy + k < c.mem.length) →
      (drawRows c px py dy count).isSome = true := by
  induction count with
  | zero => intro c px py dy _; rfl
  | succ k ih =>
    intro c px py dy h
    simp only [drawRows]
    split
    · rfl
    · rename_i h32
      rw [readMem_eq_some c (c.ir + dy) (by have := h 0 (by omega); omega)]
      simp only
      refine ih _ px py (dy + 1) fun k2 hk h32' => ?_
      have hx := h (k2 + 1) (by omega) (by omega)
      show c.ir + (dy + 1) + k2 < c.mem.length
      omega

theorem drawRows_spec (count : Nat) :
    ∀ (c : Chip) (px py dy : Nat) (c' : Chip),
      drawRows c px py dy count = some c' →
      c.screen.length = 32 → (∀ row ∈ c.screen, row.length = 64) →
      c.regs.length = 16 →
      (c'.mem = c.mem ∧ c'.pc = c.pc ∧ c'.ir = c.ir ∧ c'.stack = c.stack ∧
        c'.dt = c.dt ∧ c'.st = c.st ∧ c'.opts = c.opts ∧
        c'.muted = c.muted) ∧
      (c'.screen.length = 32 ∧ (∀ row ∈ c'.screen, row.length = 64) ∧
        c'.regs.length = c.regs.length) ∧
      (∀ j, j ≠ 15 → readReg c' j = readReg c j) ∧
      (∀ r j, pixelAt c' r j =
        xor (pixelAt c r j) (spriteBit c.mem c.ir px py (dy + count) dy r j)) ∧
      readReg c' 15 =
        (if rowsHit c.mem c.ir c.screen px py (dy + count) dy then 1
         else readReg c 15) := by
  induction count with
  | zero =>
    intro c px py dy c' h hs32 hs64 hreg16
    have hc : c' = c := by simpa [drawRows] using h.symm
    subst hc
    refine ⟨⟨rfl, rfl, rfl, rfl, rfl, rfl, rfl, rfl⟩, ⟨hs32, hs64, rfl⟩,
      fun j _ => rfl, fun r j => ?_, ?_⟩
    · rw [spriteBit_eq_false _ _ _ _ _ _ _ _ (by omega)]
      simp
    · rw [rowsHit_false_of _ _ _ _ _ _ _
        (fun r j => spriteBit_eq_false _ _ _ _ _ _ _ _ (by omega))]
      simp
  | succ k ih =>
    intro c px py dy c' h hs32 hs64 hreg16
    simp only [drawRows] at h
    split at h
    · rename_i h32
      have hc : c' = c := by simpa using h.symm
      subst hc
      refine ⟨⟨rfl, rfl, rfl, rfl, rfl, rfl, rfl, rfl⟩, ⟨hs32, hs64, rfl⟩,
        fun j _ => rfl, fun r j => ?_, ?_⟩
      · rw [spriteBit_eq_false _ _ _ _ _ _ _ _ (by omega)]
        simp
      · rw [rowsHit_false_of _ _ _ _ _ _ _
          (fun r j => spriteBit_eq_false _ _ _ _ _ _ _ _ (by omega))]
        simp
    · rename_i h32
      split at h
      · exact absurd h (by simp)
      · rename_i data heq
        -- the fetched sprite byte
        unfold readMem at heq
        split at heq
        · rename_i hirlen
          injection heq with heqd
          -- names for the row update
          set row := c.screen.getD (py + dy) [] with hrow
          have hrowmem : row ∈ c.screen := by
            rw [hrow, List.getD_eq_getElem _ _ (by omega)]
            exact List.getElem_mem _
          have hrowlen : row.length = 64 := hs64 row hrowmem
          set res := drawCols row px data 0 (readReg c 15) 8 with hres
          set c2 : Chip :=
            writeReg { c with screen := c.screen.set (py + dy) res.1 } 15 res.2
            with hc2
          have h2 : drawRows c2 px py (dy + 1) k = some c' := h
          have hc2s32 : c2.screen.length = 32 := by
            simp [hc2, List.length_set, hs32]
          have hc2s64 : ∀ r ∈ c2.screen, r.length = 64 := by
            intro r hr
            simp only [hc2, writeReg_screen] at hr
            rcases List.mem_or_eq_of_mem_set hr with hr | hr
            · exact hs64 r hr
            · rw [hr, hres, drawCols_fst_length]
              exact hrowlen
          have hc2reg16 : c2.regs.length = 16 := by
            simp [hc2, hreg16]
          obtain ⟨⟨hmem, hpc, hir, hstack, hdt, hst, hopts, hmuted⟩,
            ⟨hs32', hs64', hreglen⟩, hregs, hpix, hflag⟩ :=
            ih c2 px py (dy + 1) c' h2 hc2s32 hc2s64 hc2reg16
          have hc2mem : c2.mem = c.mem := rfl
          have hc2ir : c2.ir = c.ir := rfl
          refine ⟨⟨by rw [hmem]; rfl, by rw [hpc]; rfl, by rw [hir]; rfl,
            by rw [hstack]; rfl, by rw [hdt]; rfl, by rw [hst]; rfl,
            by rw [hopts]; rfl, by rw [hmuted]; rfl⟩,
            ⟨hs32', hs64', by rw [hreglen]; simp [hc2]⟩, ?_, ?_, ?_⟩
          · intro j hj
            rw [hregs j hj, hc2, readReg_writeReg_ne _ _ (fun hh => hj hh.symm)]
            rfl
          · intro r j
            have hpixc2 := hpix r j
            rw [hc2mem, hc2ir,
              show (dy + 1) + k = dy + (k + 1) by omega] at hpixc2
            rw [hpixc2]
            by_cases hrp : r = py + dy
            · have hp2 : pixelAt c2 r j = xor (pixelAt c r j)
                  (colBit px data 0 j) := by
                unfold pixelAt
                rw [show c2.screen = c.screen.set (py + dy) res.1 from rfl,
                  hrp, getD_set_self _ _ _ _ (by omega), hres,
                  drawCols_fst_getD 8 row px data 0 _ j hrowlen (by omega),
                  hrow]
              rw [hp2, hrp,
                spriteBit_eq_false c.mem c.ir px py (dy + (k + 1)) (dy + 1)
                  (py + dy) j (by omega),
                spriteBit_self _ _ _ _ _ _ _ (by omega) (by omega), ← heqd]
              simp
            · have hp2 : pixelAt c2 r j = pixelAt c r j := by
                unfold pixelAt
                rw [show c2.screen = c.screen.set (py + dy) res.1 from rfl,
                  getD_set_ne _ _ _ (fun hh => hrp hh.symm)]
              rw [hp2, spriteBit_succ_eq _ _ _ _ _ _ _ _ hrp]
          · rw [hflag, hc2mem, hc2ir]
            rw [show c2.screen = c.screen.set (py + dy) res.1 from rfl,
              rowsHit_set_lt _ _ _ _ _ _ _ _ _ (by omega)]
            have hr15 : readReg c2 15 = res.2 := by
              rw [hc2, readReg_writeReg_self _ _ _
                (by simp [show ({ c with
                  screen := c.screen.set (py + dy) res.1 } : Chip).regs =
                    c.regs from rfl, hreg16])]
              rw [hres, drawCols_snd 8 row px data 0 _ hrowlen (by omega)]
              split
              · rfl
              · exact Nat.mod_eq_of_lt (readReg_lt c 15)
            rw [hr15, hres, drawCols_snd 8 row px data 0 _ hrowlen (by omega)]
            rw [show dy + (k + 1) = (dy + 1) + k by omega]
            rw [rowsHit_succ_decomp c.mem c.ir c.screen px py ((dy + 1) + k)
              dy (by omega) (by omega), ← heqd]
            cases hA : rowsHit c.mem c.ir c.screen px py (dy + 1 + k) (dy + 1) <;>
              cases hB : colHit row px data 0 <;>
              simp [hA, hB, hrow]
        · exact absurd heq (by simp)

/-! ### Characterisation of the register-block store and load loops -/

theorem storeRegs_spec (count : Nat) :
    ∀ (c : Chip) (i : Nat) (c' : Chip), storeRegs c i count = some c' →
      (c'.regs = c.regs ∧ c'.pc = c.pc ∧ c'.ir = c.ir ∧
        c'.stack = c.stack ∧ c'.screen = c.screen ∧ c'.opts = c.opts ∧
        c'.dt = c.dt ∧ c'.st = c.st ∧ c'.muted = c.muted ∧
        c'.mem.length = c.mem.length) ∧
      (∀ j, i ≤ j → j < i + count → c'.mem.getD (c.ir + j) 0 = readReg c j) ∧
      (∀ a, a < c.ir + i ∨ c.ir + i + count ≤ a →
        c'.mem.getD a 0 = c.mem.getD a 0) := by
  induction count with
  | zero =>
    intro c i c' h
    have hc : c' = c := by simpa [storeRegs] using h.symm
    subst hc
    exact ⟨⟨rfl, rfl, rfl, rfl, rfl, rfl, rfl, rfl, rfl, rfl⟩,
      fun j h1 h2 => absurd h2 (by omega), fun a _ => rfl⟩
  | succ k ih =>
    intro c i c' h
    simp only [storeRegs] at h
    split at h
    · exact absurd h (by simp)
    · rename_i c2 heq
      unfold writeMem at heq
      split at heq
      · rename_i hlt
        injection heq with heqc
        obtain ⟨⟨hregs, hpc, hir, hstack, hscreen, hopts, hdt, hst, hmuted,
          hmlen⟩, hstored, hother⟩ := ih c2 (i + 1) c' h
        have hc2regs : c2.regs = c.regs := by rw [← heqc]
        have hc2ir : c2.ir = c.ir := by rw [← heqc]
        have hc2mem : c2.mem = c.mem.set (c.ir + i) (readReg c i % 256) := by
          rw [← heqc]
        have hc2read : ∀ j, readReg c2 j = readReg c j := by
          intro j
          unfold readReg
          rw [hc2regs]
        refine ⟨⟨by rw [hregs, hc2regs], by rw [hpc, ← heqc],
          by rw [hir, hc2ir], by rw [hstack, ← heqc],
          by rw [hscreen, ← heqc], by rw [hopts, ← heqc],
          by rw [hdt, ← heqc], by rw [hst, ← heqc],
          by rw [hmuted, ← heqc],
          by rw [hmlen, hc2mem, List.length_set]⟩, ?_, ?_⟩
        · intro j h1 h2
          by_cases hji : j = i
          · subst hji
            have := hother (c.ir + j) (by rw [hc2ir]; omega)
            rw [this, hc2mem, getD_set_self _ _ _ _ hlt]
            exact Nat.mod_eq_of_lt (readReg_lt c j)
          · have := hstored j (by omega) (by omega)
            rw [hc2ir, hc2read] at this
            exact this
        · intro a ha
          have := hother a (by rw [hc2ir]; omega)
          rw [this, hc2mem, getD_set_ne _ _ _ (by omega)]
      · exact absurd heq (by simp)

theorem storeRegs_isSome (count : Nat) :
    ∀ (c : Chip) (i : Nat),
      (∀ k, k < count → c.ir + i + k < c.mem.length) →
      (storeRegs c i count).isSome = true := by
  induction count with
  | zero => intro c i _; rfl
  | succ k ih =>
    intro c i h
    simp only [storeRegs]
    rw [writeMem_eq_some c (c.ir + i) _ (by have := h 0 (by omega); omega)]
    simp only
    refine ih _ (i + 1) fun k2 hk => ?_
    show c.ir + (i + 1) + k2 < (c.mem.set (c.ir + i) (readReg c i % 256)).length
    rw [List.length_set]
    have := h (k2 + 1) (by omega)
    omega

theorem storeRegs_eq_none (count : Nat) :
    ∀ (c : Chip) (i : Nat),
      (∃ k, k < count ∧ c.mem.length ≤ c.ir + i + k) →
      storeRegs c i count = none := by
  induction count with
  | zero =>
    intro c i ⟨k, hk, _⟩
    omega
  | succ kk ih =>
    intro c i ⟨k, hk, hlen⟩
    simp only [storeRegs]
    by_cases hfirst : c.ir + i < c.mem.length
    · rw [writeMem_eq_some c (c.ir + i) _ hfirst]
      simp only
      refine ih _ (i + 1) ⟨k - 1, by omega, ?_⟩
      show (c.mem.set (c.ir + i) (readReg c i % 256)).length ≤
        c.ir + (i + 1) + (k - 1)
      rw [List.length_set]
      omega
    · rw [writeMem_eq_none c (c.ir + i) _ (by omega)]

theorem loadRegs_spec (count : Nat) :
    ∀ (c : Chip) (i : Nat) (c' : Chip), loadRegs c i count = some c' →
      (c'.mem = c.mem ∧ c'.pc = c.pc ∧ c'.ir = c.ir ∧
        c'.stack = c.stack ∧ c'.screen = c.screen ∧ c'.opts = c.opts ∧
        c'.dt = c.dt ∧ c'.st = c.st ∧ c'.muted = c.muted ∧
        c'.regs.length = c.regs.length) ∧
      (∀ j, i ≤ j → j < i + count → j < c.regs.length →
        readReg c' j = c.mem.getD (c.ir + j) 0 % 256) ∧
      (∀ j, j < i ∨ i + count ≤ j → readReg c' j = readReg c j) := by
  induction count with
  | zero =>
    intro c i c' h
    have hc : c' = c := by simpa [loadRegs] using h.symm
    subst hc
    exact ⟨⟨rfl, rfl, rfl, rfl, rfl, rfl, rfl, rfl, rfl, rfl⟩,
      fun j h1 h2 _ => absurd h2 (by omega), fun j _ => rfl⟩
  | succ k ih =>
    intro c i c' h
    simp only [loadRegs] at h
    split at h
    · exact absurd h (by simp)
    · rename_i v heq
      unfold readMem at heq
      split at heq
      · rename_i hlt
        injection heq with heqv
        obtain ⟨⟨hmem, hpc, hir, hstack, hscreen, hopts, hdt, hst, hmuted,
          hreglen⟩, hloaded, hother⟩ := ih (writeReg c i v) (i + 1) c' h
        refine ⟨⟨by rw [hmem]; rfl, by rw [hpc]; rfl, by rw [hir]; rfl,
          by rw [hstack]; rfl, by rw [hscreen]; rfl, by rw [hopts]; rfl,
          by rw [hdt]; rfl, by rw [hst]; rfl, by rw [hmuted]; rfl,
          by rw [hreglen]; simp⟩, ?_, ?_⟩
        · intro j h1 h2 hjlen
          by_cases hji : j = i
          · subst hji
            have := hother j (by omega)
            rw [this, readReg_writeReg_self _ _ _ hjlen, ← heqv]
            omega
          · have := hloaded j (by omega) (by omega) (by simpa using hjlen)
            rw [writeReg_mem, writeReg_ir] at this
            exact this
        · intro j hj
          have := hother j (by omega)
          rw [this, readReg_writeReg_ne _ _ (by omega)]
      · exact absurd heq (by simp)

theorem loadRegs_isSome (count : Nat) :
    ∀ (c : Chip) (i : Nat),
      (∀ k, k < count → c.ir + i + k < c.mem.length) →
      (loadRegs c i count).isSome = true := by
  induction count with
  | zero => intro c i _; rfl
  | succ k ih =>
    intro c i h
    simp only [loadRegs]
    rw [readMem_eq_some c (c.ir + i) (by have := h 0 (by omega); omega)]
    simp only
    refine ih _ (i + 1) fun k2 hk => ?_
    show c.ir + (i + 1) + k2 < c.mem.length
    have := h (k2 + 1) (by omega)
    omega

theorem loadRegs_eq_none (count : Nat) :
    ∀ (c : Chip) (i : Nat),
      (∃ k, k < count ∧ c.mem.length ≤ c.ir + i + k) →
      loadRegs c i count = none := by
  induction count with
  | zero =>
    intro c i ⟨k, hk, _⟩
    omega
  | succ kk ih =>
    intro c i ⟨k, hk, hlen⟩
    simp only [loadRegs]
    by_cases hfirst : c.ir + i < c.mem.length
    · rw [readMem_eq_some c (c.ir + i) hfirst]
      simp only
      refine ih _ (i + 1) ⟨k - 1, by omega, ?_⟩
      show c.mem.length ≤ c.ir + (i + 1) + (k - 1)
      omega
    · rw [readMem_eq_none c (c.ir + i) (by omega)]

/-! ### Memory layout of a freshly constructed chip -/

theorem copyInto_length (src : List Nat) :
    ∀ (dst : List Nat) (start : Nat),
      (copyInto dst start src).length = dst.length := by
  induction src with
  | nil => intro dst start; rfl
  | cons b rest ih =>
    intro dst start
    show (copyInto (dst.set start b) (start + 1) rest).length = dst.length
    rw [ih, List.length_set]

theorem copyInto_getD_lt (src : List Nat) :
    ∀ (dst : List Nat) (start a : Nat), a < start →
      (copyInto dst start src).getD a 0 = dst.getD a 0 := by
  induction src with
  | nil => intro dst start a _; rfl
  | cons b rest ih =>
    intro dst start a ha
    show (copyInto (dst.set start b) (start + 1) rest).getD a 0 = dst.getD a 0
    rw [ih _ _ _ (by omega), getD_set_ne _ _ _ (by omega)]

theorem copyInto_getD_in (src : List Nat) :
    ∀ (dst : List Nat) (start k : Nat), k < src.length →
      start + src.length ≤ dst.length →
      (copyInto dst start src).getD (start + k) 0 = src.getD k 0 := by
  induction src with
  | nil => intro dst start k hk _; simp at hk
  | cons b rest ih =>
    intro dst start k hk hb
    match k with
    | 0 =>
      show (copyInto (dst.set start b) (start + 1) rest).getD (start + 0) 0 = b
      rw [copyInto_getD_lt _ _ _ _ (by omega)]
      exact getD_set_self _ _ _ _ (by simp at hb ⊢; omega)
    | k' + 1 =>
      show (copyInto (dst.set start b) (start + 1) rest).getD
        (start + (k' + 1)) 0 = rest.getD k' 0
      rw [show start + (k' + 1) = (start + 1) + k' by omega]
      exact ih _ _ _ (by simp at hk; omega)
        (by rw [List.length_set]; simp at hb; omega)

/-! ### Per-instruction effect lemmas -/

theorem exec0_screen (c : Chip) (nnn : Nat) (h : nnn ≠ 0xE0) :
    (exec0 c nnn).screen = c.screen := by
  unfold exec0
  rw [if_neg h]
  split
  · split <;> rfl
  · rfl

theorem exec0_pc (c : Chip) (nnn : Nat)
    (h : nnn = 0xEE → c.stack = []) : (exec0 c nnn).pc = c.pc := by
  unfold exec0
  by_cases h0 : nnn = 0xE0
  · rw [if_pos h0]
  · rw [if_neg h0]
    by_cases h1 : nnn = 0xEE
    · rw [if_pos h1, h h1]
    · rw [if_neg h1]

theorem exec1_screen (c : Chip) (nnn : Nat) :
    (exec1 c nnn).screen = c.screen := by
  unfold exec1
  split <;> rfl

theorem exec2_screen (c : Chip) (nnn : Nat) :
    (exec2 c nnn).screen = c.screen := rfl

theorem exec3_screen (c : Chip) (x nn : Nat) :
    (exec3 c x nn).screen = c.screen := by
  unfold exec3
  split <;> rfl

theorem exec3_pc_par (c : Chip) (x nn : Nat) :
    (exec3 c x nn).pc % 2 = c.pc % 2 := by
  unfold exec3
  split
  · show (c.pc + 2) % 2 = c.pc % 2
    omega
  · rfl

theorem exec4_screen (c : Chip) (x nn : Nat) :
    (exec4 c x nn).screen = c.screen := by
  unfold exec4
  split <;> rfl

theorem exec4_pc_par (c : Chip) (x nn : Nat) :
    (exec4 c x nn).pc % 2 = c.pc % 2 := by
  unfold exec4
  split
  · show (c.pc + 2) % 2 = c.pc % 2
    omega
  · rfl

theorem exec5_screen (c : Chip) (x y : Nat) :
    (exec5 c x y).screen = c.screen := by
  unfold exec5
  split <;> rfl

theorem exec5_pc_par (c : Chip) (x y : Nat) :
    (exec5 c x y).pc % 2 = c.pc % 2 := by
  unfold exec5
  split
  · show (c.pc + 2) % 2 = c.pc % 2
    omega
  · rfl

theorem exec9_screen (c : Chip) (x y : Nat) :
    (exec9 c x y).screen = c.screen := by
  unfold exec9
  split <;> rfl

theorem exec9_pc_par (c : Chip) (x y : Nat) :
    (exec9 c x y).pc % 2 = c.pc % 2 := by
  unfold exec9
  split
  · show (c.pc + 2) % 2 = c.pc % 2
    omega
  · rfl

theorem exec8_shape (c : Chip) (x y n : Nat) :
    exec8 c x y n = c ∨ (∃ v, exec8 c x y n = writeReg c x v) ∨
      (∃ v w, exec8 c x y n = writeReg (writeReg c x v) 15 w) := by
  simp only [exec8]
  by_cases h0 : n = 0
  · rw [if_pos h0]
    exact Or.inr (Or.inl ⟨_, rfl⟩)
  rw [if_neg h0]
  by_cases h1 : n = 1
  · rw [if_pos h1]
    exact Or.inr (Or.inl ⟨_, rfl⟩)
  rw [if_neg h1]
  by_cases h2 : n = 2
  · rw [if_pos h2]
    exact Or.inr (Or.inl ⟨_, rfl⟩)
  rw [if_neg h2]
  by_cases h3 : n = 3
  · rw [if_pos h3]
    exact Or.inr (Or.inl ⟨_, rfl⟩)
  rw [if_neg h3]
  by_cases h4 : n = 4
  · rw [if_pos h4]
    exact Or.inr (Or.inr ⟨_, _, rfl⟩)
  rw [if_neg h4]
  by_cases h5 : n = 5
  · rw [if_pos h5]
    exact Or.inr (Or.inr ⟨_, _, rfl⟩)
  rw [if_neg h5]
  by_cases h7 : n = 7
  · rw [if_pos h7]
    exact Or.inr (Or.inr ⟨_, _, rfl⟩)
  rw [if_neg h7]
  by_cases h6 : n = 6
  · rw [if_pos h6]
    exact Or.inr (Or.inr ⟨_, _, rfl⟩)
  rw [if_neg h6]
  by_cases h14 : n = 14
  · rw [if_pos h14]
    exact Or.inr (Or.inr ⟨_, _, rfl⟩)
  rw [if_neg h14]
  exact Or.inl rfl

theorem exec8_screen (c : Chip) (x y n : Nat) :
    (exec8 c x y n).screen = c.screen := by
  rcases exec8_shape c x y n with h | ⟨v, h⟩ | ⟨v, w, h⟩ <;> rw [h] <;> rfl

theorem exec8_pc (c : Chip) (x y n : Nat) : (exec8 c x y n).pc = c.pc := by
  rcases exec8_shape c x y n with h | ⟨v, h⟩ | ⟨v, w, h⟩ <;> rw [h] <;> rfl

theorem execB_screen (c : Chip) (x nnn : Nat) :
    (execB c x nnn).screen = c.screen := by
  simp only [execB]
  split_ifs <;> rfl

theorem writeMem_fields (c : Chip) (a v : Nat) (c' : Chip)
    (h : writeMem c a v = some c') :
    c'.pc = c.pc ∧ c'.screen = c.screen ∧ c'.ir = c.ir ∧
      c'.stack = c.stack ∧ c'.regs = c.regs := by
  unfold writeMem at h
  split at h
  · injection h with h
    rw [← h]
    exact ⟨rfl, rfl, rfl, rfl, rfl⟩
  · exact absurd h (by simp)

theorem execE_some (c : Chip) (inp : Input) (x nn : Nat) (c' : Chip)
    (h : execE c inp x nn = some c') :
    c'.screen = c.screen ∧ c'.pc % 2 = c.pc % 2 := by
  simp only [execE] at h
  split_ifs at h
  all_goals
    injection h with h
    subst h
    exact ⟨rfl, by first
      | rfl
      | (show (c.pc + 2) % 2 = c.pc % 2; omega)⟩

theorem execF_some (c : Chip) (inp : Input) (x nn : Nat) (c' : Chip)
    (h : execF c inp x nn = some c') :
    c'.screen = c.screen ∧ (c'.pc = c.pc ∨ c'.pc = c.pc - 2) := by
  simp only [execF] at h
  by_cases h07 : nn = 0x07
  · rw [if_pos h07] at h
    injection h with h
    subst h
    exact ⟨rfl, Or.inl rfl⟩
  rw [if_neg h07] at h
  by_cases h0A : nn = 0x0A
  · rw [if_pos h0A] at h
    injection h with h
    subst h
    cases (List.range 16).find? inp.keyHeld
    · exact ⟨rfl, Or.inr rfl⟩
    · exact ⟨rfl, Or.inl rfl⟩
  rw [if_neg h0A] at h
  by_cases h15 : nn = 0x15
  · rw [if_pos h15] at h
    injection h with h
    subst h
    exact ⟨rfl, Or.inl rfl⟩
  rw [if_neg h15] at h
  by_cases h18 : nn = 0x18
  · rw [if_pos h18] at h
    injection h with h
    subst h
    exact ⟨rfl, Or.inl rfl⟩
  rw [if_neg h18] at h
  by_cases h1E : nn = 0x1E
  · rw [if_pos h1E] at h
    injection h with h
    subst h
    exact ⟨rfl, Or.inl rfl⟩
  rw [if_neg h1E] at h
  by_cases h29 : nn = 0x29
  · rw [if_pos h29] at h
    injection h with h
    subst h
    exact ⟨rfl, Or.inl rfl⟩
  rw [if_neg h29] at h
  by_cases h33 : nn = 0x33
  · rw [if_pos h33] at h
    rcases ho1 : writeMem c c.ir (readReg c x / 100) with _ | c1
    · rw [ho1] at h
      exact absurd h (by simp)
    · rw [ho1] at h
      simp only [Option.some_bind] at h
      rcases ho2 : writeMem c1 (c.ir + 1) (readReg c x % 100 / 10) with _ | c2
      · rw [ho2] at h
        exact absurd h (by simp)
      · rw [ho2] at h
        simp only [Option.some_bind] at h
        obtain ⟨hp1, hs1, _, _, _⟩ := writeMem_fields _ _ _ _ ho1
        obtain ⟨hp2, hs2, _, _, _⟩ := writeMem_fields _ _ _ _ ho2
        obtain ⟨hp3, hs3, _, _, _⟩ := writeMem_fields _ _ _ _ h
        exact ⟨by rw [hs3, hs2, hs1], Or.inl (by rw [hp3, hp2, hp1])⟩
  rw [if_neg h33] at h
  by_cases h55 : nn = 0x55
  · rw [if_pos h55] at h
    rw [Option.map_eq_some'] at h
    obtain ⟨c1, hc1, hf⟩ := h
    obtain ⟨⟨_, hpc, _, _, hscreen, _, _, _, _, _⟩, _, _⟩ :=
      storeRegs_spec _ _ _ _ hc1
    subst hf
    constructor
    · split <;> simpa using hscreen
    · left
      split <;> simpa using hpc
  rw [if_neg h55] at h
  by_cases h65 : nn = 0x65
  · rw [if_pos h65] at h
    rw [Option.map_eq_some'] at h
    obtain ⟨c1, hc1, hf⟩ := h
    obtain ⟨⟨_, hpc, _, _, hscreen, _, _, _, _, _⟩, _, _⟩ :=
      loadRegs_spec _ _ _ _ hc1
    subst hf
    constructor
    · split <;> simpa using hscreen
    · left
      split <;> simpa using hpc
  rw [if_neg h65] at h
  injection h with h
  subst h
  exact ⟨rfl, Or.inl rfl⟩

theorem drawRows_fields (count : Nat) :
    ∀ (c : Chip) (px py dy : Nat) (c' : Chip),
      drawRows c px py dy count = some c' →
      c'.pc = c.pc ∧ c'.mem = c.mem ∧ c'.ir = c.ir ∧
        c'.stack = c.stack ∧ c'.opts = c.opts := by
  induction count with
  | zero =>
    intro c px py dy c' h
    have hc : c' = c := by simpa [drawRows] using h.symm
    subst hc
    exact ⟨rfl, rfl, rfl, rfl, rfl⟩
  | succ k ih =>
    intro c px py dy c' h
    simp only [drawRows] at h
    split at h
    · have hc : c' = c := by simpa using h.symm
      subst hc
      exact ⟨rfl, rfl, rfl, rfl, rfl⟩
    · split at h
      · exact absurd h (by simp)
      · obtain ⟨h1, h2, h3, h4, h5⟩ := ih _ _ _ _ _ h
        exact ⟨h1, h2, h3, h4, h5⟩

/-! ### Claim C3 -/

/-- C3: executing the return instruction (group 0, NNN = 0x0EE) with an empty
call stack is a reported, recoverable error: the failed pop leaves the pc at
the value already advanced past the return instruction by the fetch, all
other VM state is unchanged, and step returns normally (the interpreter is
not halted). -/
theorem C3_return_underflow (c : Chip) (inp : Input)
    (hlen : c.pc + 1 < c.mem.length) (hb1 : byte1 c = 0x00)
    (hb2 : byte2 c = 0xEE) (hstack : c.stack = []) :
    step c inp = some ({ c with pc := c.pc + 2 }, false) := by
  rw [step_eq_dispatch c inp hlen, hb1, hb2]
  norm_num
  rw [dispatch_0]
  unfold exec0
  norm_num
  rw [show ({ c with pc := c.pc + 2 } : Chip).stack = c.stack from rfl, hstack]

/-- Witness for C3 at a concrete state: memory holding just the 00EE opcode,
empty stack. -/
theorem C3_return_underflow_witness :
    step { baseChip with mem := [0x00, 0xEE] } inp0 =
      some
        ({ { baseChip with mem := [0x00, 0xEE] } with
            pc := ({ baseChip with mem := [0x00, 0xEE] } : Chip).pc + 2 },
          false) :=
  C3_return_underflow { baseChip with mem := [0x00, 0xEE] } inp0
    (by decide) (by decide) (by decide) (by decide)

/-! ### Claim C4 -/

/-- C4: the add-to-index instruction (F, 0x1E) computes `ir + reg[X]` in a
domain wider than 8 bits, stores the sum masked to 12 bits into the index
register, and sets the flag register 15 to 1 exactly when the unmasked sum
exceeded 12 bits (the index register of a running chip always fits in 12
bits, which the hypothesis `c.ir < 4096` records). -/
theorem C4_add_to_index (c : Chip) (inp : Input) (x : Nat)
    (hregs : c.regs.length = 16) (hlen : c.pc + 1 < c.mem.length)
    (hb1 : byte1 c = 0xF0 + x) (hx : x < 16) (hb2 : byte2 c = 0x1E)
    (hir : c.ir < 4096) :
    ∃ c', step c inp = some (c', false) ∧
      c'.ir = (c.ir + readReg c x) % 4096 ∧
      readReg c' 15 = (if 4095 < c.ir + readReg c x then 1 else 0) := by
  rw [step_eq_dispatch c inp hlen, hb1, hb2]
  rw [show (240 + x) / 16 = 15 by omega, show (240 + x) % 16 = x by omega]
  rw [dispatch_15]
  simp only [execF]
  norm_num
  have hread : readReg { c with pc := c.pc + 2 } x = readReg c x := rfl
  have hirm : c.ir % 65536 = c.ir := Nat.mod_eq_of_lt (by omega)
  have hxlt := readReg_lt c x
  refine ⟨?_, ?_⟩
  · rw [hread, hirm]
  · rw [readReg_writeReg_self _ _ _ (by show 15 < c.regs.length; omega),
      hread, hirm]
    by_cases h45 : 4095 < c.ir + readReg c x
    · rw [if_pos h45]
      omega
    · rw [if_neg h45]
      omega

/-- Witness for C4 at the spec's concrete test: index 0xFFE, reg[0] = 5;
the sum 0x1003 masks to index 0x003 with flag 1. -/
theorem C4_add_to_index_witness :
    ∃ c', step { baseChip with
        mem := [0xF0, 0x1E]
        ir := 0xFFE
        regs := (List.replicate 16 0).set 0 5 } inp0 = some (c', false) ∧
      c'.ir = 0x003 ∧ readReg c' 15 = 1 := by
  obtain ⟨c', h1, h2, h3⟩ := C4_add_to_index
    { baseChip with
        mem := [0xF0, 0x1E]
        ir := 0xFFE
        regs := (List.replicate 16 0).set 0 5 } inp0 0
    (by decide) (by decide) (by decide) (by decide) (by decide) (by decide)
  exact ⟨c', h1, by rw [h2]; decide, by rw [h3]; decide⟩

/-! ### Claim C10 -/

/-- C10: whenever one step completes, the boolean it returns is true exactly
when the executed instruction's opcode group (the fetched byte's high nibble)
is D, the draw instruction, independent of quirks, key state, and of whether
any pixel changed. -/
theorem C10_step_flag_iff_draw (c : Chip) (inp : Input) (r : Chip × Bool)
    (h : step c inp = some r) : r.2 = true ↔ byte1 c / 16 = 13 := by
  by_cases hlen : c.pc + 1 < c.mem.length
  · rw [step_eq_dispatch c inp hlen] at h
    unfold dispatch at h
    by_cases g0 : byte1 c / 16 = 0
    · rw [if_pos g0] at h
      rw [Option.some_inj] at h
      rw [← h, g0]
      simp
    rw [if_neg g0] at h
    by_cases g1 : byte1 c / 16 = 1
    · rw [if_pos g1] at h
      rw [Option.some_inj] at h
      rw [← h, g1]
      simp
    rw [if_neg g1] at h
    by_cases g2 : byte1 c / 16 = 2
    · rw [if_pos g2] at h
      rw [Option.some_inj] at h
      rw [← h, g2]
      simp
    rw [if_neg g2] at h
    by_cases g3 : byte1 c / 16 = 3
    · rw [if_pos g3] at h
      rw [Option.some_inj] at h
      rw [← h, g3]
      simp
    rw [if_neg g3] at h
    by_cases g4 : byte1 c / 16 = 4
    · rw [if_pos g4] at h
      rw [Option.some_inj] at h
      rw [← h, g4]
      simp
    rw [if_neg g4] at h
    by_cases g5 : byte1 c / 16 = 5
    · rw [if_pos g5] at h
      rw [Option.some_inj] at h
      rw [← h, g5]
      simp
    rw [if_neg g5] at h
    by_cases g6 : byte1 c / 16 = 6
    · rw [if_pos g6] at h
      rw [Option.some_inj] at h
      rw [← h, g6]
      simp
    rw [if_neg g6] at h
    by_cases g7 : byte1 c / 16 = 7
    · rw [if_pos g7] at h
      rw [Option.some_inj] at h
      rw [← h, g7]
      simp
    rw [if_neg g7] at h
    by_cases g8 : byte1 c / 16 = 8
    · rw [if_pos g8] at h
      rw [Option.some_inj] at h
      rw [← h, g8]
      simp
    rw [if_neg g8] at h
    by_cases g9 : byte1 c / 16 = 9
    · rw [if_pos g9] at h
      rw [Option.some_inj] at h
      rw [← h, g9]
      simp
    rw [if_neg g9] at h
    by_cases g10 : byte1 c / 16 = 10
    · rw [if_pos g10] at h
      rw [Option.some_inj] at h
      rw [← h, g10]
      simp
    rw [if_neg g10] at h
    by_cases g11 : byte1 c / 16 = 11
    · rw [if_pos g11] at h
      rw [Option.some_inj] at h
      rw [← h, g11]
      simp
    rw [if_neg g11] at h
    by_cases g12 : byte1 c / 16 = 12
    · rw [if_pos g12] at h
      rw [Option.some_inj] at h
      rw [← h, g12]
      simp
    rw [if_neg g12] at h
    by_cases g13 : byte1 c / 16 = 13
    · rw [if_pos g13] at h
      rw [Option.map_eq_some'] at h
      obtain ⟨c2, _, hf⟩ := h
      rw [← hf, g13]
      simp
    rw [if_neg g13] at h
    by_cases g14 : byte1 c / 16 = 14
    · rw [if_pos g14] at h
      rw [Option.map_eq_some'] at h
      obtain ⟨c2, _, hf⟩ := h
      rw [← hf]
      simp [g13]
    rw [if_neg g14] at h
    by_cases g15 : byte1 c / 16 = 15
    · rw [if_pos g15] at h
      rw [Option.map_eq_some'] at h
      obtain ⟨c2, _, hf⟩ := h
      rw [← hf]
      simp [g13]
    rw [if_neg g15] at h
    rw [Option.some_inj] at h
    rw [← h]
    simp [g13]
  · rw [step_eq_none c inp (by omega)] at h
    exact absurd h (by simp)

/-- Witness for C10 at a concrete non-draw instruction (6005, load
immediate), whose step returns false. -/
theorem C10_step_flag_iff_draw_witness :
    (({ baseChip with
        mem := [0x60, 0x05]
        pc := 2
        regs := (List.replicate 16 0).set 0 5 }, false) : Chip × Bool).2 =
        true ↔
      byte1 { baseChip with mem := [0x60, 0x05] } / 16 = 13 :=
  C10_step_flag_iff_draw { baseChip with mem := [0x60, 0x05] } inp0
    ({ baseChip with
        mem := [0x60, 0x05]
        pc := 2
        regs := (List.replicate 16 0).set 0 5 }, false) (by decide)

/-! ### Claim C5 -/

/-- C5 counterexample: with X = 15 (instruction 8F04, reg[15] = 5,
reg[0] = 0) the flag write overwrites the sum, so reg[X] ends as 0, not
(5 + 0) mod 256 = 5 as the claim's universal quantification over X
demands. -/
theorem C5_add_carry_counterexample :
    (step { baseChip with
        mem := [0x8F, 0x04]
        regs := (List.replicate 16 0).set 15 5 } inp0).map
      (fun r => readReg r.1 15) = some 0 ∧ (0 : Nat) ≠ (5 + 0) % 256 := by
  constructor
  · decide
  · decide

/-- C5 amended: for every X other than the flag register 15 (and any Y), add
with carry (8,4) stores the 8-bit sum in reg[X] and sets register 15 to the
carry; for X = 15 the carry write prevails instead. -/
theorem C5_add_carry_amended (c : Chip) (inp : Input) (x y a b : Nat)
    (hregs : c.regs.length = 16) (hlen : c.pc + 1 < c.mem.length)
    (hb1 : byte1 c = 0x80 + x) (hx : x < 16) (hx15 : x ≠ 15)
    (hb2 : byte2 c = 16 * y + 4) (hy : y < 16)
    (ha : readReg c x = a) (hb : readReg c y = b) :
    ∃ c', step c inp = some (c', false) ∧
      readReg c' x = (a + b) % 256 ∧
      readReg c' 15 = (if 255 < a + b then 1 else 0) := by
  rw [step_eq_dispatch c inp hlen, hb1, hb2]
  rw [show (128 + x) / 16 = 8 by omega, show (128 + x) % 16 = x by omega,
    show (16 * y + 4) / 16 = y by omega, show (16 * y + 4) % 16 = 4 by omega]
  rw [dispatch_8]
  simp only [exec8]
  norm_num
  have hrx : readReg { c with pc := c.pc + 2 } x = readReg c x := rfl
  have hry : readReg { c with pc := c.pc + 2 } y = readReg c y := rfl
  refine ⟨?_, ?_⟩
  · rw [readReg_writeReg_ne _ _ (fun hh => hx15 hh.symm),
      readReg_writeReg_self _ _ _ (by simp [hregs]; omega),
      hrx, hry, ha, hb]
    omega
  · rw [readReg_writeReg_self _ _ _ (by simp [hregs]),
      hrx, hry, ha, hb]
    by_cases hab : 255 < a + b
    · rw [if_pos hab]
    · rw [if_neg hab]

/-- Witness for C5 at X = 0, Y = 1, a = 200, b = 100: result 44, carry 1. -/
theorem C5_add_carry_amended_witness :
    ∃ c', step { baseChip with
        mem := [0x80, 0x14]
        regs := ((List.replicate 16 0).set 0 200).set 1 100 } inp0 =
      some (c', false) ∧
      readReg c' 0 = (200 + 100) % 256 ∧
      readReg c' 15 = (if 255 < 200 + 100 then 1 else 0) :=
  C5_add_carry_amended
    { baseChip with
        mem := [0x80, 0x14]
        regs := ((List.replicate 16 0).set 0 200).set 1 100 } inp0 0 1 200 100
    (by decide) (by decide) (by decide) (by decide) (by decide) (by decide)
    (by decide) (by decide) (by decide)

/-! ### Claim C1 -/

/-- C1 counterexample: shift right 8016 with the quirk disabled, reg[0] = 4,
reg[1] = 2: the claim says the source is read from reg[Y] (so reg[0] should
become 2 >> 1 = 1), but the code reads reg[X] and stores 4 >> 1 = 2. -/
theorem C1_shift_counterexample :
    (step { baseChip with
        mem := [0x80, 0x16]
        regs := ((List.replicate 16 0).set 0 4).set 1 2 } inp0).map
      (fun r => readReg r.1 0) = some 2 ∧ (2 : Nat) ≠ 2 / 2 := by
  constructor
  · decide
  · decide

/-- C1 amended: for both settings of the shift-ignores-second-operand quirk,
the shifted source value is read from reg[X] (the quirk changes only the
printed description); the instruction writes the shifted value to reg[X]
first and the shifted-out bit (low bit for right shift, high bit for left
shift, result masked to 8 bits) to the flag register 15 second, so for
X = 15 the flag write prevails. -/
theorem C1_shift_amended (c : Chip) (inp : Input) (x y n : Nat)
    (hlen : c.pc + 1 < c.mem.length)
    (hb1 : byte1 c = 0x80 + x) (hx : x < 16)
    (hb2 : byte2 c = 16 * y + n) (hy : y < 16) (hn : n = 6 ∨ n = 14) :
    step c inp = some
      (writeReg (writeReg { c with pc := c.pc + 2 } x
          (if n = 6 then readReg c x / 2 else readReg c x * 2 % 256))
        15 (if n = 6 then readReg c x % 2 else readReg c x / 128),
        false) := by
  have hn16 : n < 16 := by rcases hn with h | h <;> omega
  rw [step_eq_dispatch c inp hlen, hb1, hb2]
  rw [show (128 + x) / 16 = 8 by omega, show (128 + x) % 16 = x by omega,
    show (16 * y + n) / 16 = y by omega, show (16 * y + n) % 16 = n by omega]
  rw [dispatch_8]
  rcases hn with h6 | h14
  · subst h6
    simp only [exec8]
    norm_num
    rfl
  · subst h14
    simp only [exec8]
    norm_num
    rfl

/-- Witness for C1 at the counterexample state (right shift, quirk off). -/
theorem C1_shift_amended_witness :
    step { baseChip with
        mem := [0x80, 0x16]
        regs := ((List.replicate 16 0).set 0 4).set 1 2 } inp0 =
      some
        (writeReg (writeReg { { baseChip with
              mem := [0x80, 0x16]
              regs := ((List.replicate 16 0).set 0 4).set 1 2 } with
            pc := ({ baseChip with
              mem := [0x80, 0x16]
              regs := ((List.replicate 16 0).set 0 4).set 1 2 } : Chip).pc + 2 }
          0 (if 6 = 6 then readReg { baseChip with
              mem := [0x80, 0x16]
              regs := ((List.replicate 16 0).set 0 4).set 1 2 } 0 / 2
            else readReg { baseChip with
              mem := [0x80, 0x16]
              regs := ((List.replicate 16 0).set 0 4).set 1 2 } 0 * 2 % 256))
          15 (if 6 = 6 then readReg { baseChip with
              mem := [0x80, 0x16]
              regs := ((List.replicate 16 0).set 0 4).set 1 2 } 0 % 2
            else readReg { baseChip with
              mem := [0x80, 0x16]
              regs := ((List.replicate 16 0).set 0 4).set 1 2 } 0 / 128),
          false) :=
  C1_shift_amended
    { baseChip with
        mem := [0x80, 0x16]
        regs := ((List.replicate 16 0).set 0 4).set 1 2 } inp0 0 1 6
    (by decide) (by decide) (by decide) (by decide) (by decide) (Or.inl rfl)

/-! ### Claim C9 -/

/-- Executing a load-register-block instruction (F,65) fetched at `p2` with
index `I`: loads registers 0..x from memory at `I` and applies the
no-increment quirk to the index register. Shared helper for the round-trip
claim. -/
theorem loadBlock_aux (c0 : Chip) (inp : Input) (x I p2 : Nat)
    (hregs : c0.regs.length = 16) (hI : c0.ir = I) (hpc : c0.pc = p2)
    (hlen : p2 + 1 < c0.mem.length)
    (hb1 : byte1 c0 = 0xF0 + x) (hx : x < 16) (hb2 : byte2 c0 = 0x65)
    (hIX : I + x < c0.mem.length) :
    ∃ c3, step c0 inp = some (c3, false) ∧
      c3.ir = (if c0.opts.no_increment then I else I + x) ∧
      ∀ j, j ≤ x → readReg c3 j = c0.mem.getD (I + j) 0 % 256 := by
  rw [step_eq_dispatch c0 inp (by omega), hb1, hb2]
  rw [show (240 + x) / 16 = 15 by omega, show (240 + x) % 16 = x by omega]
  rw [dispatch_15]
  simp only [execF]
  norm_num
  have hsome := loadRegs_isSome (x + 1) { c0 with pc := c0.pc + 2 } 0
    (fun k hk => by
      show c0.ir + 0 + k < c0.mem.length
      omega)
  obtain ⟨cl, hcl⟩ := Option.isSome_iff_exists.mp hsome
  obtain ⟨⟨hlmem, hlpc, hlir, hlstack, hlscreen, hlopts, hldt, hlst, hlmuted,
    hlreglen⟩, hloaded, hlother⟩ := loadRegs_spec (x + 1) _ 0 cl hcl
  rw [hcl]
  refine ⟨_, rfl, ?_, ?_⟩
  · have hop : ({ c0 with pc := c0.pc + 2 } : Chip).opts.no_increment =
      c0.opts.no_increment := rfl
    by_cases hni : c0.opts.no_increment = true
    · rw [if_pos hni, if_pos hni]
      rw [hlir]
      exact hI
    · rw [if_neg hni, if_neg hni]
      show cl.ir + x = I + x
      rw [hlir]
      show c0.ir + x = I + x
      omega
  · intro j hj
    have hlt16 : j < ({ c0 with pc := c0.pc + 2 } : Chip).regs.length := by
      show j < c0.regs.length
      omega
    have hrd := hloaded j (by omega) (by omega) hlt16
    have hfin : ∀ cz : Chip,
        readReg (if c0.opts.no_increment = true then cz
          else { cz with ir := cz.ir + x }) j = readReg cz j := by
      intro cz
      by_cases hni : c0.opts.no_increment = true
      · rw [if_pos hni]
      · rw [if_neg hni]
        rfl
    rw [hfin, hrd]
    have e1 : ({ c0 with pc := c0.pc + 2 } : Chip).mem = c0.mem := rfl
    have e2 : ({ c0 with pc := c0.pc + 2 } : Chip).ir = c0.ir := rfl
    rw [e1, e2, hI, List.getD_eq_getElem?_getD]

/-- C9: storing registers 0..X to memory at index I (F,55), then resetting
the index to I and executing load-register-block (F,65), reproduces the
original values of registers 0 through X; with the no-index-increment quirk
off the index register equals I+X after each block operation, with the
quirk on it remains I. -/
theorem C9_store_load_roundtrip (c : Chip) (inp : Input) (x I p2 : Nat)
    (hregs : c.regs.length = 16) (hlen : c.pc + 1 < c.mem.length)
    (hb1 : byte1 c = 0xF0 + x) (hx : x < 16) (hb2 : byte2 c = 0x55)
    (hI : c.ir = I) (hIX : I + x < c.mem.length) :
    ∃ c1, step c inp = some (c1, false) ∧
      c1.ir = (if c.opts.no_increment then I else I + x) ∧
      (p2 + 1 < c.mem.length →
        c1.mem.getD p2 0 % 256 = 0xF0 + x →
        c1.mem.getD (p2 + 1) 0 % 256 = 0x65 →
        ∃ c3, step { c1 with ir := I, pc := p2 } inp = some (c3, false) ∧
          c3.ir = (if c.opts.no_increment then I else I + x) ∧
          ∀ j, j ≤ x → readReg c3 j = readReg c j) := by
  rw [step_eq_dispatch c inp hlen, hb1, hb2]
  rw [show (240 + x) / 16 = 15 by omega, show (240 + x) % 16 = x by omega]
  rw [dispatch_15]
  simp only [execF]
  norm_num
  have hsome := storeRegs_isSome (x + 1) { c with pc := c.pc + 2 } 0
    (fun k hk => by
      show c.ir + 0 + k < c.mem.length
      omega)
  obtain ⟨cs, hcs⟩ := Option.isSome_iff_exists.mp hsome
  obtain ⟨⟨hsregs, hspc, hsir, hsstack, hsscreen, hsopts, hsdt, hsst,
    hsmuted, hsmlen⟩, hstored, hsother⟩ := storeRegs_spec (x + 1) _ 0 cs hcs
  have hsir' : cs.ir = c.ir := hsir
  have hsmlen' : cs.mem.length = c.mem.length := hsmlen
  have hsregs' : cs.regs = c.regs := hsregs
  have hsopts' : cs.opts = c.opts := hsopts
  rw [hcs]
  refine ⟨_, rfl, ?_, ?_⟩
  · by_cases hni : c.opts.no_increment = true
    · rw [if_pos hni, if_pos hni, hsir', hI]
    · rw [if_neg hni, if_neg hni]
      show cs.ir + x = I + x
      rw [hsir', hI]
  · intro hp2len hpb1 hpb2
    have hcollapse :
        ({ (if ({ c with pc := c.pc + 2 } : Chip).opts.no_increment = true
            then cs else { cs with ir := cs.ir + x }) with
          ir := I, pc := p2 } : Chip) = { cs with ir := I, pc := p2 } := by
      by_cases hni : c.opts.no_increment = true
      · rw [if_pos hni]
      · rw [if_neg hni]
    have hmemite :
        (if ({ c with pc := c.pc + 2 } : Chip).opts.no_increment = true
          then cs else { cs with ir := cs.ir + x }).mem = cs.mem := by
      by_cases hni : c.opts.no_increment = true
      · rw [if_pos hni]
      · rw [if_neg hni]
    rw [hmemite] at hpb1 hpb2
    obtain ⟨c3, hstep3, hir3, hval⟩ := loadBlock_aux
      { cs with ir := I, pc := p2 } inp x I p2
      (by show cs.regs.length = 16; rw [hsregs']; exact hregs)
      rfl rfl
      (by show p2 + 1 < cs.mem.length; omega)
      (by
        show cs.mem.getD p2 0 % 256 = 240 + x
        rw [List.getD_eq_getElem?_getD]
        exact hpb1)
      hx
      (by
        show cs.mem.getD (p2 + 1) 0 % 256 = 101
        rw [List.getD_eq_getElem?_getD]
        exact hpb2)
      (by show I + x < cs.mem.length; omega)
    refine ⟨c3, ?_, ?_, ?_⟩
    · rw [hcollapse]
      exact hstep3
    · have hocs : ({ cs with ir := I, pc := p2 } : Chip).opts.no_increment =
          c.opts.no_increment := by
        show cs.opts.no_increment = c.opts.no_increment
        rw [hsopts']
      rw [hocs] at hir3
      exact hir3
    · intro j hj
      rw [hval j hj]
      show cs.mem.getD (I + j) 0 % 256 = readReg c j
      have hst := hstored j (by omega) (by omega)
      have e : ({ c with pc := c.pc + 2 } : Chip).ir = c.ir := rfl
      rw [e, hI] at hst
      rw [hst]
      show readReg c j % 256 = readReg c j
      exact Nat.mod_eq_of_lt (readReg_lt c j)

/-- Witness for C9: store registers 0 and 1 (values 7 and 9) at index 10,
reload them through the load block at pc 2. -/
theorem C9_store_load_roundtrip_witness :
    ∃ c1, step { baseChip with
        mem := [0xF1, 0x55, 0xF1, 0x65] ++ List.replicate 8 0
        ir := 10
        regs := ((List.replicate 16 0).set 0 7).set 1 9 } inp0 =
      some (c1, false) ∧
      c1.ir = (if ({ baseChip with
          mem := [0xF1, 0x55, 0xF1, 0x65] ++ List.replicate 8 0
          ir := 10
          regs := ((List.replicate 16 0).set 0 7).set 1 9 } :
            Chip).opts.no_increment then 10 else 10 + 1) ∧
      (2 + 1 < ({ baseChip with
          mem := [0xF1, 0x55, 0xF1, 0x65] ++ List.replicate 8 0
          ir := 10
          regs := ((List.replicate 16 0).set 0 7).set 1 9 } :
            Chip).mem.length →
        c1.mem.getD 2 0 % 256 = 0xF0 + 1 →
        c1.mem.getD (2 + 1) 0 % 256 = 0x65 →
        ∃ c3, step { c1 with ir := 10, pc := 2 } inp0 = some (c3, false) ∧
          c3.ir = (if ({ baseChip with
              mem := [0xF1, 0x55, 0xF1, 0x65] ++ List.replicate 8 0
              ir := 10
              regs := ((List.replicate 16 0).set 0 7).set 1 9 } :
                Chip).opts.no_increment then 10 else 10 + 1) ∧
          ∀ j, j ≤ 1 → readReg c3 j = readReg { baseChip with
              mem := [0xF1, 0x55, 0xF1, 0x65] ++ List.replicate 8 0
              ir := 10
              regs := ((List.replicate 16 0).set 0 7).set 1 9 } j) :=
  C9_store_load_roundtrip
    { baseChip with
        mem := [0xF1, 0x55, 0xF1, 0x65] ++ List.replicate 8 0
        ir := 10
        regs := ((List.replicate 16 0).set 0 7).set 1 9 } inp0 1 10 2
    (by decide) (by decide) (by decide) (by decide) (by decide) (by decide)
    (by decide)

/-! ### Claim C2 -/

theorem execF_eq_33 (c : Chip) (inp : Input) (x : Nat) :
    execF c inp x 0x33 =
      (writeMem c c.ir (readReg c x / 100)).bind fun c1 =>
        (writeMem c1 (c.ir + 1) (readReg c x % 100 / 10)).bind fun c2 =>
          writeMem c2 (c.ir + 2) (readReg c x % 10) := by
  simp only [execF]
  norm_num

theorem execF_eq_55 (c : Chip) (inp : Input) (x : Nat) :
    execF c inp x 0x55 =
      (storeRegs c 0 (x + 1)).map fun c1 =>
        if c.opts.no_increment then c1 else { c1 with ir := c1.ir + x } := by
  simp only [execF]
  norm_num

theorem execF_eq_65 (c : Chip) (inp : Input) (x : Nat) :
    execF c inp x 0x65 =
      (loadRegs c 0 (x + 1)).map fun c1 =>
        if c.opts.no_increment then c1 else { c1 with ir := c1.ir + x } := by
  simp only [execF]
  norm_num

/-- C2 counterexample: from the freshly constructed chip with ROM 1FFF
(jump to 0xFFF), the second step's fetch computes the out-of-bounds index
0x1000 and the interpreter panics (no result at all) instead of reporting a
defined error and continuing. -/
theorem C2_oob_counterexample :
    ((step (Chip.new [0x1F, 0xFF] CompatibilityOptions.default) inp0).bind
      fun r => step r.1 inp0) = none := by
  have hmlen : (Chip.new [0x1F, 0xFF] CompatibilityOptions.default).mem.length
      = 4096 := by
    show (copyInto (copyInto (List.replicate 4096 0) 0x50 fontData) 0x200
      [0x1F, 0xFF]).length = 4096
    rw [copyInto_length, copyInto_length, List.length_replicate]
  have hfont : (copyInto (List.replicate 4096 0) 0x50 fontData).length =
      4096 := by
    rw [copyInto_length, List.length_replicate]
  have hb1 : byte1 (Chip.new [0x1F, 0xFF] CompatibilityOptions.default) =
      0x1F := by
    show (copyInto (copyInto (List.replicate 4096 0) 0x50 fontData) 0x200
      [0x1F, 0xFF]).getD 0x200 0 % 256 = 0x1F
    rw [show (0x200 : Nat) = 0x200 + 0 from rfl,
      copyInto_getD_in [0x1F, 0xFF] _ 0x200 0 (by norm_num)
        (by rw [hfont]; norm_num)]
    rfl
  have hb2 : byte2 (Chip.new [0x1F, 0xFF] CompatibilityOptions.default) =
      0xFF := by
    show (copyInto (copyInto (List.replicate 4096 0) 0x50 fontData) 0x200
      [0x1F, 0xFF]).getD (0x200 + 1) 0 % 256 = 0xFF
    rw [copyInto_getD_in [0x1F, 0xFF] _ 0x200 1 (by norm_num)
        (by rw [hfont]; norm_num)]
    rfl
  have hstep1 : step (Chip.new [0x1F, 0xFF] CompatibilityOptions.default) inp0
      = some ({ Chip.new [0x1F, 0xFF] CompatibilityOptions.default with
          pc := 0xFFF }, false) := by
    rw [step_eq_dispatch _ inp0 (by
      rw [show (Chip.new [0x1F, 0xFF] CompatibilityOptions.default).pc = 0x200
        from rfl, hmlen]
      norm_num), hb1, hb2]
    norm_num
    rw [dispatch_1]
    unfold exec1
    rw [show (Chip.new [0x1F, 0xFF] CompatibilityOptions.default).pc = 0x200
      from rfl]
    norm_num
  rw [hstep1, Option.some_bind]
  apply step_eq_none
  show (Chip.new [0x1F, 0xFF] CompatibilityOptions.default).mem.length ≤
    0xFFF + 1
  rw [hmlen]

/-- C2 amended: executing one step is NOT total: a computed memory index
exceeding capacity (out-of-bounds program counter at fetch, BCD writes at
ir..ir+2, register-block store/load at ir..ir+X, or a draw row read at ir)
makes the step panic, modelled as `none` -- the read/write is not skipped
and execution does not continue. -/
theorem C2_oob_panics (c : Chip) (inp : Input)
    (h : c.mem.length ≤ c.pc + 1 ∨
      (c.pc + 1 < c.mem.length ∧ byte1 c / 16 = 15 ∧ byte2 c = 0x33 ∧
        c.mem.length ≤ c.ir + 2) ∨
      (c.pc + 1 < c.mem.length ∧ byte1 c / 16 = 15 ∧ byte2 c = 0x55 ∧
        c.mem.length ≤ c.ir + byte1 c % 16) ∨
      (c.pc + 1 < c.mem.length ∧ byte1 c / 16 = 15 ∧ byte2 c = 0x65 ∧
        c.mem.length ≤ c.ir + byte1 c % 16) ∨
      (c.pc + 1 < c.mem.length ∧ byte1 c / 16 = 13 ∧ 1 ≤ byte2 c % 16 ∧
        c.mem.length ≤ c.ir)) :
    step c inp = none := by
  rcases h with h | ⟨hlen, ho, hnn, hir⟩ | ⟨hlen, ho, hnn, hir⟩ |
    ⟨hlen, ho, hnn, hir⟩ | ⟨hlen, ho, hn, hir⟩
  · exact step_eq_none c inp h
  · -- BCD with ir + 2 out of bounds
    rw [step_eq_dispatch c inp hlen, ho, hnn, dispatch_15, execF_eq_33]
    by_cases h1 : c.ir < c.mem.length
    · rw [writeMem_eq_some _ _ _ (show ({ c with pc := c.pc + 2 } :
        Chip).ir < ({ c with pc := c.pc + 2 } : Chip).mem.length from h1),
        Option.some_bind]
      by_cases h2 : c.ir + 1 < c.mem.length
      · rw [writeMem_eq_some _ _ _ (by rw [List.length_set]; exact h2),
          Option.some_bind]
        rw [writeMem_eq_none _ _ _ (by
          rw [List.length_set, List.length_set]
          show c.mem.length ≤ c.ir + 2
          omega)]
        rfl
      · rw [writeMem_eq_none _ _ _ (by
          rw [List.length_set]
          show c.mem.length ≤ c.ir + 1
          omega)]
        rfl
    · rw [writeMem_eq_none _ _ _ (by
        show c.mem.length ≤ c.ir
        omega)]
      rfl
  · -- store with ir + x out of bounds
    rw [step_eq_dispatch c inp hlen, ho, hnn, dispatch_15, execF_eq_55]
    rw [storeRegs_eq_none (byte1 c % 16 + 1) { c with pc := c.pc + 2 } 0
      ⟨byte1 c % 16, by omega,
        (show c.mem.length ≤ c.ir + 0 + byte1 c % 16 from by omega)⟩]
    rfl
  · -- load with ir + x out of bounds
    rw [step_eq_dispatch c inp hlen, ho, hnn, dispatch_15, execF_eq_65]
    rw [loadRegs_eq_none (byte1 c % 16 + 1) { c with pc := c.pc + 2 } 0
      ⟨byte1 c % 16, by omega,
        (show c.mem.length ≤ c.ir + 0 + byte1 c % 16 from by omega)⟩]
    rfl
  · -- draw with the first row read out of bounds
    rw [step_eq_dispatch c inp hlen, ho, dispatch_13]
    simp only [execD]
    rcases hnval : byte2 c % 16 with _ | n'
    · omega
    · simp only [drawRows]
      rw [if_neg (by
        show ¬32 ≤ readReg { c with pc := c.pc + 2 } (byte2 c / 16) % 32 + 0
        have := Nat.mod_lt (readReg { c with pc := c.pc + 2 } (byte2 c / 16))
          (show 0 < 32 by norm_num)
        omega)]
      rw [readMem_eq_none _ _ (by
        show c.mem.length ≤ c.ir + 0
        omega)]
      rfl

/-- Witness for C2 at a concrete state whose fetch is out of bounds
(empty memory). -/
theorem C2_oob_panics_witness :
    ({ baseChip with mem := ([] : List Nat) } : Chip).mem.length ≤
        ({ baseChip with mem := ([] : List Nat) } : Chip).pc + 1 ∧
      step { baseChip with mem := ([] : List Nat) } inp0 = none :=
  ⟨by decide, C2_oob_panics { baseChip with mem := ([] : List Nat) } inp0
    (Or.inl (by decide))⟩

/-! ### Claim C7 -/

/-- C7 counterexample: the clear-screen instruction 00E0 (not a draw) resets
a previously set pixel, so an instruction other than draw does mutate the
display buffer. -/
theorem C7_clear_screen_counterexample :
    (step { baseChip with
        mem := [0x00, 0xE0]
        screen := (List.replicate 32 (List.replicate 64 false)).set 3
          ((List.replicate 64 false).set 5 true) } inp0).map
      (fun r => r.1.screen) =
        some (List.replicate 32 (List.replicate 64 false)) ∧
      ({ baseChip with
        mem := [0x00, 0xE0]
        screen := (List.replicate 32 (List.replicate 64 false)).set 3
          ((List.replicate 64 false).set 5 true) } : Chip).screen ≠
        List.replicate 32 (List.replicate 64 false) := by
  constructor
  · decide
  · decide

/-- C7 amended: draw (group D) and clear-screen (group 0 with NNN = 0x0E0)
are the only mutators of the display buffer: every step executing any other
instruction leaves all display cells unchanged. -/
theorem C7_screen_mutators_amended (c : Chip) (inp : Input) (c' : Chip)
    (b : Bool) (h : step c inp = some (c', b))
    (hD : byte1 c / 16 ≠ 13)
    (hclr : byte1 c / 16 = 0 → byte1 c % 16 * 256 + byte2 c ≠ 0xE0) :
    c'.screen = c.screen := by
  by_cases hlen : c.pc + 1 < c.mem.length
  case neg =>
    rw [step_eq_none c inp (by omega)] at h
    exact absurd h (by simp)
  rw [step_eq_dispatch c inp hlen] at h
  unfold dispatch at h
  by_cases g0 : byte1 c / 16 = 0
  · rw [if_pos g0, Option.some_inj, Prod.mk.injEq] at h
    rw [← h.1]
    exact exec0_screen _ _ (hclr g0)
  rw [if_neg g0] at h
  by_cases g1 : byte1 c / 16 = 1
  · rw [if_pos g1, Option.some_inj, Prod.mk.injEq] at h
    rw [← h.1]
    exact exec1_screen _ _
  rw [if_neg g1] at h
  by_cases g2 : byte1 c / 16 = 2
  · rw [if_pos g2, Option.some_inj, Prod.mk.injEq] at h
    rw [← h.1]
    rfl
  rw [if_neg g2] at h
  by_cases g3 : byte1 c / 16 = 3
  · rw [if_pos g3, Option.some_inj, Prod.mk.injEq] at h
    rw [← h.1]
    exact exec3_screen _ _ _
  rw [if_neg g3] at h
  by_cases g4 : byte1 c / 16 = 4
  · rw [if_pos g4, Option.some_inj, Prod.mk.injEq] at h
    rw [← h.1]
    exact exec4_screen _ _ _
  rw [if_neg g4] at h
  by_cases g5 : byte1 c / 16 = 5
  · rw [if_pos g5, Option.some_inj, Prod.mk.injEq] at h
    rw [← h.1]
    exact exec5_screen _ _ _
  rw [if_neg g5] at h
  by_cases g6 : byte1 c / 16 = 6
  · rw [if_pos g6, Option.some_inj, Prod.mk.injEq] at h
    rw [← h.1]
    rfl
  rw [if_neg g6] at h
  by_cases g7 : byte1 c / 16 = 7
  · rw [if_pos g7, Option.some_inj, Prod.mk.injEq] at h
    rw [← h.1]
    rfl
  rw [if_neg g7] at h
  by_cases g8 : byte1 c / 16 = 8
  · rw [if_pos g8, Option.some_inj, Prod.mk.injEq] at h
    rw [← h.1]
    exact exec8_screen _ _ _ _
  rw [if_neg g8] at h
  by_cases g9 : byte1 c / 16 = 9
  · rw [if_pos g9, Option.some_inj, Prod.mk.injEq] at h
    rw [← h.1]
    exact exec9_screen _ _ _
  rw [if_neg g9] at h
  by_cases g10 : byte1 c / 16 = 10
  · rw [if_pos g10, Option.some_inj, Prod.mk.injEq] at h
    rw [← h.1]
    rfl
  rw [if_neg g10] at h
  by_cases g11 : byte1 c / 16 = 11
  · rw [if_pos g11, Option.some_inj, Prod.mk.injEq] at h
    rw [← h.1]
    exact execB_screen _ _ _
  rw [if_neg g11] at h
  by_cases g12 : byte1 c / 16 = 12
  · rw [if_pos g12, Option.some_inj, Prod.mk.injEq] at h
    rw [← h.1]
    rfl
  rw [if_neg g12] at h
  by_cases g13 : byte1 c / 16 = 13
  · exact absurd g13 hD
  rw [if_neg g13] at h
  by_cases g14 : byte1 c / 16 = 14
  · rw [if_pos g14, Option.map_eq_some'] at h
    obtain ⟨c2, hE, hf⟩ := h
    rw [Prod.mk.injEq] at hf
    rw [← hf.1]
    exact (execE_some _ _ _ _ _ hE).1
  rw [if_neg g14] at h
  by_cases g15 : byte1 c / 16 = 15
  · rw [if_pos g15, Option.map_eq_some'] at h
    obtain ⟨c2, hF, hf⟩ := h
    rw [Prod.mk.injEq] at hf
    rw [← hf.1]
    exact (execF_some _ _ _ _ _ hF).1
  rw [if_neg g15, Option.some_inj, Prod.mk.injEq] at h
  rw [← h.1]

/-- Witness for C7 at a load-immediate instruction, which leaves the screen
unchanged. -/
theorem C7_screen_mutators_amended_witness :
    ({ baseChip with
        mem := [0x60, 0x05]
        pc := 2
        regs := (List.replicate 16 0).set 0 5 } : Chip).screen =
      ({ baseChip with mem := [0x60, 0x05] } : Chip).screen :=
  C7_screen_mutators_amended { baseChip with mem := [0x60, 0x05] } inp0
    { baseChip with
        mem := [0x60, 0x05]
        pc := 2
        regs := (List.replicate 16 0).set 0 5 } false
    (by decide) (by decide) (by decide)

/-! ### Claim C8 -/

/-- C8 counterexample: the freshly constructed chip (a reachable state) with
ROM 1201 executes a jump to the odd address 0x201, so the program counter
does not remain even after one step. -/
theorem C8_odd_jump_counterexample :
    (Chip.new [0x12, 0x01] CompatibilityOptions.default).pc = 0x200 ∧
    (step (Chip.new [0x12, 0x01] CompatibilityOptions.default) inp0).map
        (fun r => r.1.pc) = some 0x201 ∧
      ¬(0x201 % 2 = 0) := by
  have hmlen : (Chip.new [0x12, 0x01] CompatibilityOptions.default).mem.length
      = 4096 := by
    show (copyInto (copyInto (List.replicate 4096 0) 0x50 fontData) 0x200
      [0x12, 0x01]).length = 4096
    rw [copyInto_length, copyInto_length, List.length_replicate]
  have hfont : (copyInto (List.replicate 4096 0) 0x50 fontData).length =
      4096 := by
    rw [copyInto_length, List.length_replicate]
  have hb1 : byte1 (Chip.new [0x12, 0x01] CompatibilityOptions.default) =
      0x12 := by
    show (copyInto (copyInto (List.replicate 4096 0) 0x50 fontData) 0x200
      [0x12, 0x01]).getD 0x200 0 % 256 = 0x12
    rw [show (0x200 : Nat) = 0x200 + 0 from rfl,
      copyInto_getD_in [0x12, 0x01] _ 0x200 0 (by norm_num)
        (by rw [hfont]; norm_num)]
    rfl
  have hb2 : byte2 (Chip.new [0x12, 0x01] CompatibilityOptions.default) =
      0x01 := by
    show (copyInto (copyInto (List.replicate 4096 0) 0x50 fontData) 0x200
      [0x12, 0x01]).getD (0x200 + 1) 0 % 256 = 0x01
    rw [copyInto_getD_in [0x12, 0x01] _ 0x200 1 (by norm_num)
        (by rw [hfont]; norm_num)]
    rfl
  refine ⟨rfl, ?_, by norm_num⟩
  rw [step_eq_dispatch _ inp0 (by
    rw [show (Chip.new [0x12, 0x01] CompatibilityOptions.default).pc = 0x200
      from rfl, hmlen]
    norm_num), hb1, hb2]
  norm_num
  rw [dispatch_1]
  unfold exec1
  rw [show (Chip.new [0x12, 0x01] CompatibilityOptions.default).pc = 0x200
    from rfl]
  norm_num

/-- C8 amended: the program counter starts at 0x200, and every instruction
other than jump (group 1), call (group 2), jump-table (group B), and a
successful return (group 0, NNN = 0x0EE with a non-empty stack) preserves
the parity of the program counter; the excluded instructions set the pc to
their computed target, which need not be even. -/
theorem C8_pc_parity_amended :
    (∀ rom opts, (Chip.new rom opts).pc = 0x200) ∧
    ∀ (c : Chip) (inp : Input) (c' : Chip) (b : Bool),
      step c inp = some (c', b) →
      byte1 c / 16 ≠ 1 → byte1 c / 16 ≠ 2 → byte1 c / 16 ≠ 11 →
      (byte1 c / 16 = 0 → byte1 c % 16 * 256 + byte2 c = 0xEE →
        c.stack = []) →
      c'.pc % 2 = c.pc % 2 := by
  constructor
  · intro rom opts
    rfl
  intro c inp c' b h h1 h2 h11 h0
  by_cases hlen : c.pc + 1 < c.mem.length
  case neg =>
    rw [step_eq_none c inp (by omega)] at h
    exact absurd h (by simp)
  rw [step_eq_dispatch c inp hlen] at h
  unfold dispatch at h
  by_cases g0 : byte1 c / 16 = 0
  · rw [if_pos g0, Option.some_inj, Prod.mk.injEq] at h
    rw [← h.1, exec0_pc { c with pc := c.pc + 2 }
      (byte1 c % 16 * 256 + byte2 c) (fun hee => h0 g0 hee)]
    show (c.pc + 2) % 2 = c.pc % 2
    omega
  rw [if_neg g0] at h
  rw [if_neg h1, if_neg h2] at h
  by_cases g3 : byte1 c / 16 = 3
  · rw [if_pos g3, Option.some_inj, Prod.mk.injEq] at h
    rw [← h.1, exec3_pc_par]
    show (c.pc + 2) % 2 = c.pc % 2
    omega
  rw [if_neg g3] at h
  by_cases g4 : byte1 c / 16 = 4
  · rw [if_pos g4, Option.some_inj, Prod.mk.injEq] at h
    rw [← h.1, exec4_pc_par]
    show (c.pc + 2) % 2 = c.pc % 2
    omega
  rw [if_neg g4] at h
  by_cases g5 : byte1 c / 16 = 5
  · rw [if_pos g5, Option.some_inj, Prod.mk.injEq] at h
    rw [← h.1, exec5_pc_par]
    show (c.pc + 2) % 2 = c.pc % 2
    omega
  rw [if_neg g5] at h
  by_cases g6 : byte1 c / 16 = 6
  · rw [if_pos g6, Option.some_inj, Prod.mk.injEq] at h
    rw [← h.1]
    show (c.pc + 2) % 2 = c.pc % 2
    omega
  rw [if_neg g6] at h
  by_cases g7 : byte1 c / 16 = 7
  · rw [if_pos g7, Option.some_inj, Prod.mk.injEq] at h
    rw [← h.1]
    show (c.pc + 2) % 2 = c.pc % 2
    omega
  rw [if_neg g7] at h
  by_cases g8 : byte1 c / 16 = 8
  · rw [if_pos g8, Option.some_inj, Prod.mk.injEq] at h
    rw [← h.1, exec8_pc]
    show (c.pc + 2) % 2 = c.pc % 2
    omega
  rw [if_neg g8] at h
  by_cases g9 : byte1 c / 16 = 9
  · rw [if_pos g9, Option.some_inj, Prod.mk.injEq] at h
    rw [← h.1, exec9_pc_par]
    show (c.pc + 2) % 2 = c.pc % 2
    omega
  rw [if_neg g9] at h
  by_cases g10 : byte1 c / 16 = 10
  · rw [if_pos g10, Option.some_inj, Prod.mk.injEq] at h
    rw [← h.1]
    show (c.pc + 2) % 2 = c.pc % 2
    omega
  rw [if_neg g10, if_neg h11] at h
  by_cases g12 : byte1 c / 16 = 12
  · rw [if_pos g12, Option.some_inj, Prod.mk.injEq] at h
    rw [← h.1]
    show (c.pc + 2) % 2 = c.pc % 2
    omega
  rw [if_neg g12] at h
  by_cases g13 : byte1 c / 16 = 13
  · rw [if_pos g13, Option.map_eq_some'] at h
    obtain ⟨c2, hD, hf⟩ := h
    rw [Prod.mk.injEq] at hf
    rw [← hf.1]
    simp only [execD] at hD
    obtain ⟨hpc, _, _, _, _⟩ := drawRows_fields _ _ _ _ _ _ hD
    rw [hpc]
    show (c.pc + 2) % 2 = c.pc % 2
    omega
  rw [if_neg g13] at h
  by_cases g14 : byte1 c / 16 = 14
  · rw [if_pos g14, Option.map_eq_some'] at h
    obtain ⟨c2, hE, hf⟩ := h
    rw [Prod.mk.injEq] at hf
    rw [← hf.1]
    have hp := (execE_some _ _ _ _ _ hE).2
    rw [hp]
    show (c.pc + 2) % 2 = c.pc % 2
    omega
  rw [if_neg g14] at h
  by_cases g15 : byte1 c / 16 = 15
  · rw [if_pos g15, Option.map_eq_some'] at h
    obtain ⟨c2, hF, hf⟩ := h
    rw [Prod.mk.injEq] at hf
    rw [← hf.1]
    rcases (execF_some _ _ _ _ _ hF).2 with hp | hp
    · rw [hp]
      show (c.pc + 2) % 2 = c.pc % 2
      omega
    · rw [hp]
      show (c.pc + 2 - 2) % 2 = c.pc % 2
      omega
  rw [if_neg g15, Option.some_inj, Prod.mk.injEq] at h
  rw [← h.1]
  show (c.pc + 2) % 2 = c.pc % 2
  omega

/-- Witness for C8: initial pc of a fresh chip, and parity preservation
under a concrete load-immediate step. -/
theorem C8_pc_parity_amended_witness :
    (Chip.new [] CompatibilityOptions.default).pc = 0x200 ∧
    ({ baseChip with
        mem := [0x60, 0x05]
        pc := 2
        regs := (List.replicate 16 0).set 0 5 } : Chip).pc % 2 =
      ({ baseChip with mem := [0x60, 0x05] } : Chip).pc % 2 :=
  ⟨C8_pc_parity_amended.1 [] CompatibilityOptions.default,
    C8_pc_parity_amended.2 { baseChip with mem := [0x60, 0x05] } inp0
      { baseChip with
          mem := [0x60, 0x05]
          pc := 2
          regs := (List.replicate 16 0).set 0 5 } false
      (by decide) (by decide) (by decide) (by decide) (by decide)⟩

/-! ### Claim C6 -/

theorem xor_cancel_right (a b : Bool) : xor (xor a b) b = a := by
  cases a <;> cases b <;> rfl

/-- Full characterisation of one draw instruction: fields preserved, screen
XORed with the sprite bits, flag 15 set to 1 exactly when the sprite hit a
set pixel. -/
theorem execD_spec (c : Chip) (x y n : Nat) (c' : Chip)
    (hs32 : c.screen.length = 32) (hs64 : ∀ row ∈ c.screen, row.length = 64)
    (hreg : c.regs.length = 16) (h : execD c x y n = some c') :
    (c'.mem = c.mem ∧ c'.pc = c.pc ∧ c'.ir = c.ir ∧ c'.stack = c.stack ∧
      c'.dt = c.dt ∧ c'.st = c.st ∧ c'.opts = c.opts ∧
      c'.muted = c.muted) ∧
    (c'.screen.length = 32 ∧ (∀ row ∈ c'.screen, row.length = 64) ∧
      c'.regs.length = 16) ∧
    (∀ j, j ≠ 15 → readReg c' j = readReg c j) ∧
    (∀ r j, pixelAt c' r j = xor (pixelAt c r j)
      (spriteBit c.mem c.ir (readReg c x % 64) (readReg c y % 32) n 0 r j)) ∧
    readReg c' 15 = (if rowsHit c.mem c.ir c.screen (readReg c x % 64)
      (readReg c y % 32) n 0 then 1 else 0) := by
  simp only [execD] at h
  obtain ⟨⟨hmem, hpc, hir, hstack, hdt, hst, hopts, hmuted⟩,
    ⟨h32', h64', hrl'⟩, hregs', hpix', hflag'⟩ :=
    drawRows_spec n (writeReg c 15 0) (readReg c x % 64)
      (readReg c y % 32) 0 c' h
      (by rw [writeReg_screen]; exact hs32)
      (by rw [writeReg_screen] at *; exact hs64)
      (by rw [writeReg_regs_length]; exact hreg)
  have h015 : readReg (writeReg c 15 0) 15 = 0 :=
    readReg_writeReg_self c 15 0 (by omega)
  refine ⟨⟨by rw [hmem]; rfl, by rw [hpc]; rfl, by rw [hir]; rfl,
    by rw [hstack]; rfl, by rw [hdt]; rfl, by rw [hst]; rfl,
    by rw [hopts]; rfl, by rw [hmuted]; rfl⟩,
    ⟨h32', h64', by rw [hrl', writeReg_regs_length]; exact hreg⟩,
    ?_, ?_, ?_⟩
  · intro j hj
    rw [hregs' j hj, readReg_writeReg_ne _ _ (fun hh => hj hh.symm)]
  · intro r j
    have := hpix' r j
    rw [Nat.zero_add] at this
    exact this
  · rw [hflag', h015, Nat.zero_add, writeReg_mem, writeReg_ir,
      writeReg_screen]

/-- C6 counterexample: drawing an all-zero one-row sprite twice restores the
(unchanged) screen, but the second draw's flag is 0, not 1 as the claim
demands for every sprite. -/
theorem C6_draw_twice_counterexample :
    ((step { baseChip with
        mem := [0xD0, 0x11, 0xD0, 0x11, 0x00]
        ir := 4 } inp0).bind fun r => step r.1 inp0).map
      (fun r => readReg r.1 15) = some 0 ∧ (0 : Nat) ≠ 1 := by
  constructor
  · decide
  · decide

/-- C6 amended: executing the same draw instruction twice in succession
(identical coordinates, with X and Y distinct from the flag register, and
sprite rows in bounds) restores every display pixel to its pre-draw state,
and the second draw's flag register is 1 exactly when some visible sprite
bit covers a pixel that was clear before the first draw (i.e. the first
draw turned some pixel on); for an all-zero or fully-overlapping sprite the
flag is 0. -/
theorem C6_draw_twice_amended (c : Chip) (inp : Input) (x y n : Nat)
    (hs32 : c.screen.length = 32) (hs64 : ∀ row ∈ c.screen, row.length = 64)
    (hregs : c.regs.length = 16) (hlen : c.pc + 3 < c.mem.length)
    (hb1 : byte1 c = 0xD0 + x) (hx : x < 16) (hx15 : x ≠ 15)
    (hb2 : byte2 c = 16 * y + n) (hy : y < 16) (hy15 : y ≠ 15) (hn : n < 16)
    (hb1' : c.mem.getD (c.pc + 2) 0 % 256 = 0xD0 + x)
    (hb2' : c.mem.getD (c.pc + 3) 0 % 256 = 16 * y + n)
    (hir : c.ir + n ≤ c.mem.length) :
    ∃ c2 c3, step c inp = some (c2, true) ∧ step c2 inp = some (c3, true) ∧
      c3.screen = c.screen ∧
      (readReg c3 15 = 1 ↔ ∃ r j, r < 32 ∧ j < 64 ∧
        spriteBit c.mem c.ir (readReg c x % 64) (readReg c y % 32) n 0 r j
          = true ∧ pixelAt c r j = false) := by
  have hD16 : (208 + x) / 16 = 13 := by omega
  have hDx : (208 + x) % 16 = x := by omega
  have hYd : (16 * y + n) / 16 = y := by omega
  have hNd : (16 * y + n) % 16 = n := by omega
  -- first draw
  have hsome1 : (execD { c with pc := c.pc + 2 } x y n).isSome = true := by
    simp only [execD]
    exact drawRows_isSome n _ _ _ 0 (fun k hk _ => by
      show c.ir + 0 + k < c.mem.length
      omega)
  obtain ⟨c2v, hc2⟩ := Option.isSome_iff_exists.mp hsome1
  obtain ⟨⟨hmem2, hpc2, hir2, _, _, _, _, _⟩, ⟨h32b, h64b, hrlb⟩,
    hregs2, hpix2, hflag2⟩ :=
    execD_spec { c with pc := c.pc + 2 } x y n c2v hs32 hs64 hregs hc2
  have hstep1 : step c inp = some (c2v, true) := by
    rw [step_eq_dispatch c inp (by omega), hb1, hb2, hD16, hDx, hYd, hNd,
      dispatch_13, hc2]
    rfl
  -- the second fetch
  have hmem2' : c2v.mem = c.mem := hmem2
  have hpc2' : c2v.pc = c.pc + 2 := hpc2
  have hir2' : c2v.ir = c.ir := hir2
  have hb1s : byte1 c2v = 0xD0 + x := by
    unfold byte1
    rw [hmem2', hpc2']
    exact hb1'
  have hb2s : byte2 c2v = 16 * y + n := by
    unfold byte2
    rw [hmem2', hpc2']
    exact hb2'
  have hsome2 : (execD { c2v with pc := c2v.pc + 2 } x y n).isSome = true := by
    simp only [execD]
    exact drawRows_isSome n _ _ _ 0 (fun k hk _ => by
      show c2v.ir + 0 + k < c2v.mem.length
      rw [hir2', hmem2']
      omega)
  obtain ⟨c3v, hc3⟩ := Option.isSome_iff_exists.mp hsome2
  obtain ⟨⟨hmem3, hpc3, hir3, _, _, _, _, _⟩, ⟨h32c, h64c, hrlc⟩,
    hregs3, hpix3, hflag3⟩ :=
    execD_spec { c2v with pc := c2v.pc + 2 } x y n c3v h32b h64b hrlb hc3
  have hstep2 : step c2v inp = some (c3v, true) := by
    rw [step_eq_dispatch c2v inp (by rw [hpc2', hmem2']; omega),
      hb1s, hb2s, hD16, hDx, hYd, hNd, dispatch_13, hc3]
    rfl
  -- the second draw uses the same coordinates and sprite data
  have hrdx : readReg { c2v with pc := c2v.pc + 2 } x = readReg c x := by
    show readReg c2v x = readReg c x
    rw [hregs2 x hx15]
    rfl
  have hrdy : readReg { c2v with pc := c2v.pc + 2 } y = readReg c y := by
    show readReg c2v y = readReg c y
    rw [hregs2 y hy15]
    rfl
  have hpix2' : ∀ r j, pixelAt c2v r j = xor (pixelAt c r j)
      (spriteBit c.mem c.ir (readReg c x % 64) (readReg c y % 32) n 0 r j) :=
    fun r j => hpix2 r j
  have hpix3' : ∀ r j, pixelAt c3v r j = xor (pixelAt c2v r j)
      (spriteBit c.mem c.ir (readReg c x % 64) (readReg c y % 32) n 0 r j) :=
    fun r j => by
      have := hpix3 r j
      rw [hrdx, hrdy] at this
      rw [show ({ c2v with pc := c2v.pc + 2 } : Chip).mem = c.mem from hmem2',
        show ({ c2v with pc := c2v.pc + 2 } : Chip).ir = c.ir from hir2']
        at this
      exact this
  have hpt : ∀ r j, pixelAt c3v r j = pixelAt c r j := fun r j => by
    rw [hpix3' r j, hpix2' r j, xor_cancel_right]
  refine ⟨c2v, c3v, hstep1, hstep2, ?_, ?_⟩
  · -- the screen is restored
    refine ext_getD _ _ [] (by rw [h32c, hs32]) ?_
    intro r hr
    have hr32 : r < 32 := by rwa [h32c] at hr
    refine ext_getD _ _ false ?_ ?_
    · have hm3 : c3v.screen.getD r [] ∈ c3v.screen := by
        rw [List.getD_eq_getElem _ _ (by omega)]
        exact List.getElem_mem _
      have hmc : c.screen.getD r [] ∈ c.screen := by
        rw [List.getD_eq_getElem _ _ (by omega)]
        exact List.getElem_mem _
      rw [h64c _ hm3, hs64 _ hmc]
    · intro j _
      exact hpt r j
  · -- the second draw's flag
    have hflag3' : readReg c3v 15 =
        (if rowsHit c.mem c.ir c2v.screen (readReg c x % 64)
          (readReg c y % 32) n 0 then 1 else 0) := by
      rw [hflag3, hrdx, hrdy]
      rw [show ({ c2v with pc := c2v.pc + 2 } : Chip).mem = c.mem from hmem2',
        show ({ c2v with pc := c2v.pc + 2 } : Chip).ir = c.ir from hir2']
    rw [hflag3']
    by_cases hrh : rowsHit c.mem c.ir c2v.screen (readReg c x % 64)
        (readReg c y % 32) n 0 = true
    · rw [if_pos hrh]
      obtain ⟨r, hr, j, hj, hsb, hpx⟩ :=
        (rowsHit_iff _ _ _ _ _ _ _).mp hrh
      refine iff_of_true rfl ⟨r, j, hr, hj, hsb, ?_⟩
      have : pixelAt c2v r j = true := hpx
      rw [hpix2' r j, hsb] at this
      cases hcp : pixelAt c r j
      · rfl
      · rw [hcp] at this
        exact absurd this (by simp)
    · rw [if_neg hrh]
      refine iff_of_false (by norm_num) ?_
      rintro ⟨r, j, hr, hj, hsb, hpf⟩
      refine hrh ((rowsHit_iff _ _ _ _ _ _ _).mpr ⟨r, hr, j, hj, hsb, ?_⟩)
      show pixelAt c2v r j = true
      rw [hpix2' r j, hsb, hpf]
      rfl

/-- Witness for C6: a one-row sprite 0xF0 drawn twice at (0,0) on an empty
screen; the screen is restored and the second flag is 1. -/
theorem C6_draw_twice_amended_witness :
    ∃ c2 c3, step { baseChip with
        mem := [0xD0, 0x11, 0xD0, 0x11, 0xF0]
        ir := 4 } inp0 = some (c2, true) ∧
      step c2 inp0 = some (c3, true) ∧
      c3.screen = ({ baseChip with
        mem := [0xD0, 0x11, 0xD0, 0x11, 0xF0]
        ir := 4 } : Chip).screen ∧
      (readReg c3 15 = 1 ↔ ∃ r j, r < 32 ∧ j < 64 ∧
        spriteBit ({ baseChip with
            mem := [0xD0, 0x11, 0xD0, 0x11, 0xF0]
            ir := 4 } : Chip).mem 4
          (readReg { baseChip with
            mem := [0xD0, 0x11, 0xD0, 0x11, 0xF0]
            ir := 4 } 0 % 64)
          (readReg { baseChip with
            mem := [0xD0, 0x11, 0xD0, 0x11, 0xF0]
            ir := 4 } 1 % 32) 1 0 r j = true ∧
        pixelAt { baseChip with
            mem := [0xD0, 0x11, 0xD0, 0x11, 0xF0]
            ir := 4 } r j = false) :=
  C6_draw_twice_amended
    { baseChip with
        mem := [0xD0, 0x11, 0xD0, 0x11, 0xF0]
        ir := 4 } inp0 0 1 1
    (by decide) (by decide) (by decide) (by decide) (by decide) (by decide)
    (by decide) (by decide) (by decide) (by decide) (by decide) (by decide)
    (by decide) (by decide)
